import Mathlib

/-!
# Verification of the LuaProto table <-> message marshaling engine

Shallow embedding of `src/LuaProto.cpp` (namespace `LuaModule`): a Lua module
exposing `serialize`, `deserialize` and `debugstr` over google::protobuf
reflection.  The embedding models:

* the protobuf schema metadata the code branches on (`FieldDescriptor`:
  name, label, `is_map`, cpp_type, enum symbol table, nested message type),
* message instances as reflection-addressable field stores
  (proto2-style explicit presence: the code handles `LABEL_REQUIRED`,
  a proto2-only label, and `ListFields` lists exactly the set fields),
* Lua guest values (nil / boolean / integer / number / byte-string / table),
  with tables as association lists in `lua_next` iteration order,
* the marshaling walk `_table2msg` / `_msg2table` and its helpers,
  aborting via `Except String` where the C++ raises `luaL_error`,
* the entry points `serialize` / `deserialize` / `debugstr`, with the
  external wire codec and debug renderers passed in as function parameters
  (they are external collaborators, out of the repository).

Simplifications that are documented where they occur: Lua's number->string
coercion inside `luaL_checkstring` is modelled for integers only; IEEE-754
`float` narrowing is modelled by an idealized round-to-nearest on rationals;
Lua table keys compare structurally (protobuf map keys are scalars, where
this coincides with Lua's raw equality).
-/

namespace LuaProto

/-- Marshaling computations abort with a `luaL_error` message. -/
abbrev M := Except String

/-! ## Schema metadata (google::protobuf descriptors) -/

/-- `FieldDescriptor::label()`: proto2 labels. -/
inductive Label where
  | optionalL
  | requiredL
  | repeatedL
deriving DecidableEq, Repr

mutual

/-- `FieldDescriptor::cpp_type()` together with the type-specific metadata the
code consults: `enum_type()` symbol table for enums, `message_type()` for
nested messages (also the synthetic map-entry type of a map field). -/
inductive FieldKind where
  | int32K
  | int64K
  | uint32K
  | uint64K
  | doubleK
  | floatK
  | boolK
  | stringK
  | enumK (symbols : List String)
  | messageK (sub : List (String × Label × Bool × FieldKind))
deriving Repr

end

/-- One field descriptor: `(name, label, is_map, cpp_type/kind)`. -/
abbrev FieldDescriptor := String × Label × Bool × FieldKind

/-- A message descriptor is its ordered field list. -/
abbrev Descriptor := List FieldDescriptor

/-- `FieldDescriptor::name()`. -/
def fname (f : FieldDescriptor) : String := f.1

/-- `FieldDescriptor::label()`. -/
def flabel (f : FieldDescriptor) : Label := f.2.1

/-- `FieldDescriptor::is_map()`. -/
def fismap (f : FieldDescriptor) : Bool := f.2.2.1

/-- `FieldDescriptor::cpp_type()` plus type-specific metadata. -/
def fkind (f : FieldDescriptor) : FieldKind := f.2.2.2

/-- `Descriptor::FindFieldByName`: first field with the given name. -/
def findField (d : Descriptor) (n : String) : Option FieldDescriptor :=
  d.find? (fun f => fname f = n)

/-! ## Guest (Lua) values -/

/-- A Lua value as the module sees it.  Tables are association lists of
key/value pairs in `lua_next` iteration order; Lua strings are byte strings
with explicit length (they may contain NUL bytes), modelled as `String`. -/
inductive LuaValue where
  | nil
  | boolean (b : Bool)
  | int (n : Int)
  | num (q : ℚ)
  | str (s : String)
  | table (t : List (LuaValue × LuaValue))
deriving Repr

/-- A Lua table (the payload of `LuaValue.table`). -/
abbrev LuaTable := List (LuaValue × LuaValue)

mutual

/-- Lua raw equality on values (`lua_rawequal`), used for table keys.
Integer and float subtypes of numbers compare by mathematical value.
Real Lua compares tables by identity; the module only ever uses scalar
map keys, where structural equality coincides. -/
def lvBeq : LuaValue → LuaValue → Bool
  | .nil, .nil => true
  | .boolean a, .boolean b => a == b
  | .int a, .int b => a == b
  | .int a, .num b => (a : ℚ) == b
  | .num a, .int b => a == (b : ℚ)
  | .num a, .num b => a == b
  | .str a, .str b => a == b
  | .table a, .table b => lvlBeq a b
  | _, _ => false

/-- Pairwise structural equality of table pair lists. -/
def lvlBeq : List (LuaValue × LuaValue) → List (LuaValue × LuaValue) → Bool
  | [], [] => true
  | (k₁, v₁) :: r₁, (k₂, v₂) :: r₂ => lvBeq k₁ k₂ && lvBeq v₁ v₂ && lvlBeq r₁ r₂
  | _, _ => false

end

/-- Raw lookup `t[k]` (`lua_rawget`): first pair with an equal key, else nil. -/
def lookupT (t : LuaTable) (k : LuaValue) : Option LuaValue :=
  match t.find? (fun p => lvBeq p.1 k) with
  | some p => some p.2
  | none => none

/-- Raw store `t[k] = v` (`lua_rawset`): replace an existing key or append. -/
def rawset (t : LuaTable) (k v : LuaValue) : LuaTable :=
  if t.any (fun p => lvBeq p.1 k) then
    t.map (fun p => if lvBeq p.1 k then (k, v) else p)
  else
    t ++ [(k, v)]

/-- Raw indexed lookup `t[i]` for an integer key (`lua_rawgeti`). -/
def rawgeti (t : LuaTable) (i : Int) : LuaValue :=
  match t.find? (fun p => lvBeq p.1 (.int i)) with
  | some p => p.2
  | none => .nil

/-- Whether `t[i]` is present (non-nil) for an integer key. -/
def hasIntKey (t : LuaTable) (i : Int) : Bool :=
  t.any (fun p => lvBeq p.1 (.int i))

/-- Count consecutive integer keys upward from `n`. -/
def rawlenGo (t : LuaTable) : Nat → Nat → Nat
  | n, 0 => n
  | n, fuel + 1 => if hasIntKey t ((n : Int) + 1) then rawlenGo t (n + 1) fuel else n

/-- `lua_rawlen` on a table: a border of the sequence part.  Modelled as the
number of consecutive integer keys `1..n` present in the table. -/
def rawlen (t : LuaTable) : Nat :=
  rawlenGo t 0 t.length

/-! ## C argument-checking primitives -/

/-- Truncation of a byte string at its first NUL byte: what the C++ code
sees whenever it consumes the result of `luaL_checkstring` through a
`const char*` (field-name lookup, `SetString`/`AddString`,
`FindValueByName`, `%s` formatting). -/
def cstr (s : String) : String :=
  String.mk (s.data.takeWhile (fun c => c ≠ Char.ofNat 0))

/-- `luaL_checkinteger`: accept an integer, or a float with an exact integer
value in `lua_Integer` (int64) range; otherwise raise.  (Lua's string->number
coercion is not modelled; no claim exercises it.) -/
def checkinteger : LuaValue → M Int
  | .int n => .ok n
  | .num q =>
    if q.den = 1 ∧ -(2 ^ 63) ≤ q.num ∧ q.num < 2 ^ 63 then .ok q.num
    else .error "number has no integer representation"
  | _ => .error "number expected"

/-- `luaL_checknumber`: accept any number; otherwise raise.  (String->number
coercion is not modelled; no claim exercises it.) -/
def checknumber : LuaValue → M ℚ
  | .int n => .ok (n : ℚ)
  | .num q => .ok q
  | _ => .error "number expected"

/-- `luaL_checkstring`: accept a string; a number argument is coerced to its
decimal representation (modelled for the integer subtype; the `%.14g` float
formatting is not modelled, and no claim exercises it); otherwise raise. -/
def checkstring : LuaValue → M String
  | .str s => .ok s
  | .int n => .ok (toString n)
  | _ => .error "string expected"

/-- `lua_istable`. -/
def isTable : LuaValue → Bool
  | .table _ => true
  | _ => false

/-- `lua_toboolean`: nil and false are false, every other value is true. -/
def toboolean : LuaValue → Bool
  | .nil => false
  | .boolean b => b
  | _ => true

/-! ## Machine-integer conversions

The C++ code converts `lua_Integer` (int64) to the field's native integral
type by standard integral conversion (two's-complement wrap-around), and
reads values back through `lua_pushinteger`, again an int64. -/

/-- Two's-complement wrap of an integer into `bits`-bit signed range. -/
def wrapS (bits : Nat) (n : Int) : Int :=
  (n + 2 ^ (bits - 1)) % 2 ^ bits - 2 ^ (bits - 1)

/-- Wrap of an integer into `bits`-bit unsigned range. -/
def wrapU (bits : Nat) (n : Int) : Int :=
  n % 2 ^ bits

/-- Idealized IEEE-754 binary32 narrowing on rationals: round to nearest
representable value with a 24-bit significand (ties away from zero via
`round`; subnormal/overflow behavior is not modelled — the claims only use
exactly representable values and the fact that narrowing is a projection
determined by the input). -/
def f32 (q : ℚ) : ℚ :=
  if q = 0 then 0
  else
    let s : ℚ := if q < 0 then -1 else 1
    let e : ℤ := Int.log 2 |q|
    s * (round (|q| * (2 : ℚ) ^ (23 - e)) : ℚ) * (2 : ℚ) ^ (e - 23)

/-! ## Message instances (reflection view)

A message instance is an association list from field name to the field's
value list: a set singular field holds one element, a repeated field holds
its elements in order, and an absent name (or `[]`) is an unset field.
This models proto2 explicit presence: `Reflection::SetX` marks the field
set, and `ListFields` lists exactly the fields that are set / non-empty. -/

/-- A stored native field element. -/
inductive PValue where
  | pInt (n : Int)
  | pNum (q : ℚ)
  | pBool (b : Bool)
  | pStr (s : String)
  | pEnum (sym : String)
  | pMsg (sub : List (String × List PValue))
deriving Repr

/-- A message instance: field name ↦ stored elements. -/
abbrev Msg := List (String × List PValue)

/-- The stored elements of a field (empty iff the field is unset). -/
def msgGet (m : Msg) (n : String) : List PValue :=
  match m with
  | [] => []
  | p :: rest => if p.1 = n then p.2 else msgGet rest n

/-- Replace a field's stored elements. -/
def msgSet (m : Msg) (n : String) (s : List PValue) : Msg :=
  match m with
  | [] => [(n, s)]
  | p :: rest => if p.1 = n then (n, s) :: rest else p :: msgSet rest n s

/-- Append elements to a field (`Reflection::AddX`). -/
def msgAddList (m : Msg) (n : String) (b : List PValue) : Msg :=
  msgSet m n (msgGet m n ++ b)

/-- Append one element to a field. -/
def msgAdd (m : Msg) (n : String) (w : PValue) : Msg :=
  msgAddList m n [w]

/-- The current singular sub-message of a field (`Reflection::MutableMessage`
returns the existing sub-message, or a fresh default instance). -/
def currentSub (m : Msg) (n : String) : Msg :=
  match msgGet m n with
  | .pMsg s :: _ => s
  | _ => []

/-- `Reflection::ListFields`: the schema's fields that are currently set
(singular: explicitly set; repeated: at least one element), in descriptor
order. -/
def listFields (d : Descriptor) (m : Msg) : List FieldDescriptor :=
  d.filter (fun f => !(msgGet m (fname f)).isEmpty)

/-- Every Lua value has positive size (termination bookkeeping). -/
theorem lv_sizeOf_pos (v : LuaValue) : 0 < sizeOf v := by
  cases v <;> simp_arith

/-- Every pair list has positive size (termination bookkeeping). -/
theorem lvt_sizeOf_pos (t : LuaTable) : 0 < sizeOf t := by
  cases t <;> simp_arith

/-- A table retrieved from a table by `rawgeti` is strictly smaller. -/
theorem rawgeti_table_sizeOf {t : LuaTable} {i : Int} {tt : LuaTable}
    (h : rawgeti t i = .table tt) : sizeOf (LuaValue.table tt) < sizeOf t := by
  unfold rawgeti at h
  cases hf : t.find? (fun p => lvBeq p.1 (.int i)) with
  | none => rw [hf] at h; simp at h
  | some p =>
    rw [hf] at h
    simp at h
    have hm : p ∈ t := List.mem_of_find?_eq_some hf
    have hlt : sizeOf p < sizeOf t := List.sizeOf_lt_of_mem hm
    have hp : sizeOf p.2 < sizeOf p := by
      obtain ⟨a, b⟩ := p; simp_arith
    rw [h] at hp
    omega

/-! ## The write direction: `_table2msg` and its helpers

`luaL_error` aborts are modelled by `Except.error`.  The C++ loops dispatch
on `cpp_type()` once outside the per-element loop; since the kind is loop
invariant this is modelled equivalently by dispatching per element. -/

mutual

/-- `_table2msg`: walk a guest table into a message.  A non-table value is a
silent no-op (the reflection/descriptor null checks never fire for live
messages). -/
def table2msg (d : Descriptor) (m : Msg) (v : LuaValue) : M Msg :=
  match v with
  | .table pairs => t2mGo d m pairs
  | _ => .ok m
termination_by (sizeOf v, 2)

/-- The `lua_next` loop of `_table2msg`: each key is read as a string
(`luaL_checkstring`), resolved with `FindFieldByName` (which consumes the
key as a C string, hence truncated at NUL), and an unresolved key raises
`invalid field <key>!`. -/
def t2mGo (d : Descriptor) (m : Msg) : LuaTable → M Msg
  | [] => .ok m
  | (k, v) :: rest =>
    match checkstring k with
    | .error e => .error e
    | .ok s =>
      match findField d (cstr s) with
      | none => .error ("invalid field " ++ cstr s ++ "!")
      | some f =>
        match setfield f m v with
        | .error e => .error e
        | .ok m' => t2mGo d m' rest
termination_by pairs => (sizeOf pairs, 9)

/-- `_setfield`: dispatch on the field's label; repeated fields dispatch on
`is_map()`. -/
def setfield (f : FieldDescriptor) (m : Msg) (v : LuaValue) : M Msg :=
  match flabel f with
  | .optionalL | .requiredL => setsingle f m v
  | .repeatedL => if fismap f then setmap f m v else setarray f m v
termination_by (sizeOf v, 6)

/-- `_setsingle`: write one singular field, dispatching on `cpp_type()`.
Note the enum case: an unrecognized symbol is silently skipped (`if
(enumvalue) SetEnum(...)` with no else), and the string case stores the
`const char*` result of `luaL_checkstring`, truncating at the first NUL.
The message case mirrors `MutableMessage` (which marks the field set even
when the subsequent `_table2msg` is a no-op) followed by recursion. -/
def setsingle (f : FieldDescriptor) (m : Msg) (v : LuaValue) : M Msg :=
  match fkind f with
  | .int32K =>
    match checkinteger v with
    | .error e => .error e
    | .ok n => .ok (msgSet m (fname f) [.pInt (wrapS 32 n)])
  | .int64K =>
    match checkinteger v with
    | .error e => .error e
    | .ok n => .ok (msgSet m (fname f) [.pInt (wrapS 64 n)])
  | .uint32K =>
    match checkinteger v with
    | .error e => .error e
    | .ok n => .ok (msgSet m (fname f) [.pInt (wrapU 32 n)])
  | .uint64K =>
    match checkinteger v with
    | .error e => .error e
    | .ok n => .ok (msgSet m (fname f) [.pInt (wrapU 64 n)])
  | .doubleK =>
    match checknumber v with
    | .error e => .error e
    | .ok q => .ok (msgSet m (fname f) [.pNum q])
  | .floatK =>
    match checknumber v with
    | .error e => .error e
    | .ok q => .ok (msgSet m (fname f) [.pNum (f32 q)])
  | .boolK => .ok (msgSet m (fname f) [.pBool (toboolean v)])
  | .enumK syms =>
    match checkstring v with
    | .error e => .error e
    | .ok s =>
      if cstr s ∈ syms then .ok (msgSet m (fname f) [.pEnum (cstr s)])
      else .ok m
  | .stringK =>
    match checkstring v with
    | .error e => .error e
    | .ok s => .ok (msgSet m (fname f) [.pStr (cstr s)])
  | .messageK sub =>
    match table2msg sub (currentSub m (fname f)) v with
    | .error e => .error e
    | .ok sm => .ok (msgSet m (fname f) [.pMsg sm])
termination_by (sizeOf v, 5)

/-- `_setarray`: a non-table value is a silent no-op; otherwise append
elements `t[1] .. t[rawlen t]` to the repeated field. -/
def setarray (f : FieldDescriptor) (m : Msg) (v : LuaValue) : M Msg :=
  match v with
  | .table t => arrGo (fkind f) (fname f) t m 1 (rawlen t)
  | _ => .ok m
termination_by (sizeOf v, 5)

/-- The element loop of `_setarray` (`cnt` iterations remaining, current
index `i`).  The message case inlines the is-table test of the recursive
`_table2msg` call at the call site: `AddMessage` appends a fresh empty
sub-message, which a non-table element leaves empty. -/
def arrGo (kd : FieldKind) (nm : String) (t : LuaTable) (m : Msg) (i : Int) : Nat → M Msg
  | 0 => .ok m
  | cnt + 1 =>
    match kd with
    | .int32K =>
      match checkinteger (rawgeti t i) with
      | .error e => .error e
      | .ok n => arrGo kd nm t (msgAdd m nm (.pInt (wrapS 32 n))) (i + 1) cnt
    | .int64K =>
      match checkinteger (rawgeti t i) with
      | .error e => .error e
      | .ok n => arrGo kd nm t (msgAdd m nm (.pInt (wrapS 64 n))) (i + 1) cnt
    | .uint32K =>
      match checkinteger (rawgeti t i) with
      | .error e => .error e
      | .ok n => arrGo kd nm t (msgAdd m nm (.pInt (wrapU 32 n))) (i + 1) cnt
    | .uint64K =>
      match checkinteger (rawgeti t i) with
      | .error e => .error e
      | .ok n => arrGo kd nm t (msgAdd m nm (.pInt (wrapU 64 n))) (i + 1) cnt
    | .doubleK =>
      match checknumber (rawgeti t i) with
      | .error e => .error e
      | .ok q => arrGo kd nm t (msgAdd m nm (.pNum q)) (i + 1) cnt
    | .floatK =>
      match checknumber (rawgeti t i) with
      | .error e => .error e
      | .ok q => arrGo kd nm t (msgAdd m nm (.pNum (f32 q))) (i + 1) cnt
    | .boolK =>
      arrGo kd nm t (msgAdd m nm (.pBool (toboolean (rawgeti t i)))) (i + 1) cnt
    | .enumK syms =>
      match checkstring (rawgeti t i) with
      | .error e => .error e
      | .ok s =>
        if cstr s ∈ syms then
          arrGo kd nm t (msgAdd m nm (.pEnum (cstr s))) (i + 1) cnt
        else
          .error ("Invalid Enum In Repeated Field! " ++ cstr s)
    | .stringK =>
      match checkstring (rawgeti t i) with
      | .error e => .error e
      | .ok s => arrGo kd nm t (msgAdd m nm (.pStr (cstr s))) (i + 1) cnt
    | .messageK sub =>
      match hr : rawgeti t i with
      | .table tt =>
        match table2msg sub [] (.table tt) with
        | .error e => .error e
        | .ok sm => arrGo kd nm t (msgAdd m nm (.pMsg sm)) (i + 1) cnt
      | _ => arrGo kd nm t (msgAdd m nm (.pMsg [])) (i + 1) cnt
termination_by cnt => (sizeOf t, cnt)
decreasing_by
all_goals first
  | decreasing_tactic
  | (have h9 := rawgeti_table_sizeOf hr
     apply Prod.Lex.left
     simp_arith at h9 ⊢
     omega)

/-- `_setmap`: a non-table value is a silent no-op; a map field whose value
type is not a message raises; otherwise each guest pair becomes a fresh
entry message appended to the repeated entry field. -/
def setmap (f : FieldDescriptor) (m : Msg) (v : LuaValue) : M Msg :=
  match v with
  | .table t =>
    match fkind f with
    | .messageK sub => mapGo sub (fname f) m t
    | _ => .error "map cpptype must be message!"
  | _ => .ok m
termination_by (sizeOf v, 5)

/-- The `lua_next` loop of `_setmap`: `AddMessage` appends a fresh entry
message and `_kv2msg` fills it in place (modelled by building the entry
from the default instance and appending the result). -/
def mapGo (de : Descriptor) (nm : String) (m : Msg) : LuaTable → M Msg
  | [] => .ok m
  | (k, v) :: rest =>
    match kv2msg de [] k v with
    | .error e => .error e
    | .ok ent => mapGo de nm (msgAdd m nm (.pMsg ent)) rest
termination_by pairs => (sizeOf pairs, 3)

/-- `_kv2msg`: resolve the entry type's `key` and `value` fields (hard
errors if missing), then write the guest key and value through
`_setfield`. -/
def kv2msg (de : Descriptor) (m : Msg) (k v : LuaValue) : M Msg :=
  match findField de "key" with
  | none => .error "no key field!"
  | some kf =>
    match findField de "value" with
    | none => .error "no value field!"
    | some vf =>
      match setfield kf m k with
      | .error e => .error e
      | .ok m₁ => setfield vf m₁ v
termination_by (sizeOf k + sizeOf v, 9)
decreasing_by
all_goals
  apply Prod.Lex.left
  have hk := lv_sizeOf_pos k
  have hv := lv_sizeOf_pos v
  omega

end

/-! ## The read direction: `_msg2table` and its helpers -/

/-- Every message instance has positive size (termination bookkeeping). -/
theorem msg_sizeOf_pos (m : Msg) : 0 < sizeOf m := by
  cases m <;> simp_arith

/-- Every element list has positive size (termination bookkeeping). -/
theorem pvl_sizeOf_pos (l : List PValue) : 0 < sizeOf l := by
  cases l <;> simp_arith

/-- Size bound for a sub-message stored at the head of a slot
(termination bookkeeping). -/
theorem pmsg_cons_sizeOf (s : Msg) (l : List PValue) :
    sizeOf s + 2 < sizeOf (PValue.pMsg s :: l) := by
  have := pvl_sizeOf_pos l
  simp_arith
  omega

/-- A field's stored elements are no larger than the message. -/
theorem msgGet_sizeOf_le (m : Msg) (n : String) : sizeOf (msgGet m n) ≤ sizeOf m := by
  induction m with
  | nil => simp [msgGet]
  | cons p rest ih =>
    unfold msgGet
    by_cases h : p.1 = n
    · simp only [h, if_true]
      obtain ⟨a, b⟩ := p
      simp_arith
    · simp only [h, if_false]
      have h1 : 0 < sizeOf p := by obtain ⟨a, b⟩ := p; simp_arith
      have h2 : sizeOf (p :: rest) = 1 + sizeOf p + sizeOf rest := by simp_arith
      omega

/-- `Reflection::GetInt32`-style read of the head of a singular slot,
with the protobuf default for an unset field. -/
def slotInt : List PValue → Int
  | .pInt n :: _ => n
  | _ => 0

/-- Numeric slot read, default 0. -/
def slotNum : List PValue → ℚ
  | .pNum q :: _ => q
  | _ => 0

/-- Boolean slot read, default false. -/
def slotBool : List PValue → Bool
  | .pBool b :: _ => b
  | _ => false

/-- String slot read, default empty. -/
def slotStr : List PValue → String
  | .pStr s :: _ => s
  | _ => ""

/-- A repeated element read as an integer (`GetRepeatedInt32` etc.). -/
def pvInt : PValue → Int
  | .pInt n => n
  | _ => 0

/-- A repeated element read as a number. -/
def pvNum : PValue → ℚ
  | .pNum q => q
  | _ => 0

/-- A repeated element read as a boolean. -/
def pvBool : PValue → Bool
  | .pBool b => b
  | _ => false

/-- A repeated element read as a string. -/
def pvStr : PValue → String
  | .pStr s => s
  | _ => ""

/-- A repeated element read as a message (`GetRepeatedMessage`). -/
def pvMsg : PValue → Msg
  | .pMsg s => s
  | _ => []

/-- The message view of an element is no larger than the element
(termination bookkeeping). -/
theorem pvMsg_sizeOf_le (e : PValue) : sizeOf (pvMsg e) ≤ sizeOf e := by
  cases e <;> simp_arith [pvMsg]

mutual

/-- `_msg2table`: list the set fields and store `table[field.name] =
read_field(...)` for each (`lua_rawset` after pushing name and value). -/
def msg2table (d : Descriptor) (m : Msg) : M LuaValue :=
  match m2tGo m [] (listFields d m) with
  | .error e => .error e
  | .ok t => .ok (.table t)
termination_by (sizeOf m + 2, 0)

/-- The field loop of `_msg2table`. -/
def m2tGo (m : Msg) (acc : LuaTable) : List FieldDescriptor → M LuaTable
  | [] => .ok acc
  | f :: fs =>
    match pushfield f (msgGet m (fname f)) with
    | .error e => .error e
    | .ok w => m2tGo m (rawset acc (.str (fname f)) w) fs
termination_by fs => (sizeOf m + 1, sizeOf fs)
decreasing_by
all_goals first
  | decreasing_tactic
  | (apply Prod.Lex.left
     have h9 := msgGet_sizeOf_le m (fname f)
     omega)

/-- `_pushfield`: dispatch on the field's label; repeated fields dispatch on
`is_map()`.  (The field's stored element list is passed explicitly: every
reflection read the C++ performs is per-field.) -/
def pushfield (f : FieldDescriptor) (slot : List PValue) : M LuaValue :=
  match flabel f with
  | .optionalL | .requiredL => pushsingle f slot
  | .repeatedL => if fismap f then pushmap f slot else pusharray f slot
termination_by (sizeOf slot, 5)

/-- `_pushsingle`: read one singular field, dispatching on `cpp_type()`.
`GetUInt64` is pushed through `lua_pushinteger`, an int64, hence wraps.
For an unset enum field `GetEnum` yields the type's first (default) value;
an enum type with no values is impossible for generated messages (the C++
would skip the push there), modelled as nil.  For an unset message field
`GetMessage` yields the default instance, whose table is empty. -/
def pushsingle (f : FieldDescriptor) (slot : List PValue) : M LuaValue :=
  match fkind f with
  | .int32K | .int64K | .uint32K => .ok (.int (slotInt slot))
  | .uint64K => .ok (.int (wrapS 64 (slotInt slot)))
  | .doubleK | .floatK => .ok (.num (slotNum slot))
  | .boolK => .ok (.boolean (slotBool slot))
  | .enumK syms =>
    match slot with
    | .pEnum sym :: _ => .ok (.str sym)
    | _ =>
      match syms.head? with
      | some sym => .ok (.str sym)
      | none => .ok .nil
  | .stringK => .ok (.str (slotStr slot))
  | .messageK sub =>
    match slot with
    | .pMsg s :: _rest => msg2table sub s
    | _ => .ok (.table [])
termination_by (sizeOf slot, 4)
decreasing_by
all_goals
  apply Prod.Lex.left
  exact pmsg_cons_sizeOf s _

/-- `_pusharray`: build a sequence table indexed `1..FieldSize`. -/
def pusharray (f : FieldDescriptor) (slot : List PValue) : M LuaValue :=
  match arrPushGo (fkind f) [] 1 slot with
  | .error e => .error e
  | .ok t => .ok (.table t)
termination_by (sizeOf slot, 4)

/-- The element loop of `_pusharray` (`lua_rawseti i`, with `i` ascending
from 1, modelled by `rawset` on the integer key).  A stored enum element
whose `GetRepeatedEnum` has no descriptor is pushed as the literal
`"error enum"`. -/
def arrPushGo (kd : FieldKind) (acc : LuaTable) (i : Int) : List PValue → M LuaTable
  | [] => .ok acc
  | e :: rest =>
    match kd with
    | .int32K | .int64K | .uint32K =>
      arrPushGo kd (rawset acc (.int i) (.int (pvInt e))) (i + 1) rest
    | .uint64K =>
      arrPushGo kd (rawset acc (.int i) (.int (wrapS 64 (pvInt e)))) (i + 1) rest
    | .doubleK | .floatK =>
      arrPushGo kd (rawset acc (.int i) (.num (pvNum e))) (i + 1) rest
    | .boolK =>
      arrPushGo kd (rawset acc (.int i) (.boolean (pvBool e))) (i + 1) rest
    | .enumK _ =>
      match e with
      | .pEnum sym => arrPushGo kd (rawset acc (.int i) (.str sym)) (i + 1) rest
      | _ => arrPushGo kd (rawset acc (.int i) (.str "error enum")) (i + 1) rest
    | .stringK =>
      arrPushGo kd (rawset acc (.int i) (.str (pvStr e))) (i + 1) rest
    | .messageK sub =>
      match e with
      | .pMsg s =>
        match msg2table sub s with
        | .error e => .error e
        | .ok w => arrPushGo kd (rawset acc (.int i) w) (i + 1) rest
      | _ => arrPushGo kd (rawset acc (.int i) (.table [])) (i + 1) rest
termination_by elems => (sizeOf elems, 3)
decreasing_by
all_goals first
  | decreasing_tactic
  | (apply Prod.Lex.left
     have h9 := pvl_sizeOf_pos rest
     simp_arith
     omega)

/-- `_pushmap`: a map field whose value type is not a message raises;
otherwise each entry message contributes one `key -> value` pair. -/
def pushmap (f : FieldDescriptor) (slot : List PValue) : M LuaValue :=
  match fkind f with
  | .messageK sub =>
    match mapPushGo sub [] slot with
    | .error e => .error e
    | .ok t => .ok (.table t)
  | _ => .error "map cpptype must be message!"
termination_by (sizeOf slot, 4)

/-- The entry loop of `_pushmap`. -/
def mapPushGo (de : Descriptor) (acc : LuaTable) : List PValue → M LuaTable
  | [] => .ok acc
  | e :: rest =>
    match msg2kv de (pvMsg e) with
    | .error err => .error err
    | .ok kv => mapPushGo de (rawset acc kv.1 kv.2) rest
termination_by elems => (sizeOf elems, 3)
decreasing_by
all_goals first
  | decreasing_tactic
  | (apply Prod.Lex.left
     have h9 := pvMsg_sizeOf_le e
     have h8 := pvl_sizeOf_pos rest
     simp_arith
     omega)

/-- `_msg2kv`: an entry message must have exactly two set fields, and its
type must have fields named `key` and `value`; read both. -/
def msg2kv (de : Descriptor) (e : Msg) : M (LuaValue × LuaValue) :=
  if (listFields de e).length ≠ 2 then .error "msg2kv size error!"
  else
    match findField de "key" with
    | none => .error "no key field!"
    | some kf =>
      match pushfield kf (msgGet e (fname kf)) with
      | .error err => .error err
      | .ok kv =>
        match findField de "value" with
        | none => .error "no value field!"
        | some vf =>
          match pushfield vf (msgGet e (fname vf)) with
          | .error err => .error err
          | .ok vv => .ok (kv, vv)
termination_by (sizeOf e + 1, 0)
decreasing_by
all_goals apply Prod.Lex.left
all_goals first
  | (have h9 := msgGet_sizeOf_le e (fname kf); omega)
  | (have h9 := msgGet_sizeOf_le e (fname vf); omega)

end

/-! ## Entry operations -/

/-- The schema registry (`DescriptorPool::generated_pool`): type name ↦
message descriptor. -/
abbrev Pool := List (String × Descriptor)

/-- `_newmsg`: resolve the type name in the pool and create a fresh message
from its prototype (`Message::New`, an all-unset instance).  The pool and
factory upvalues are always non-null (bound at module load time). -/
def newmsg (pool : Pool) (name : String) : Option Descriptor :=
  match pool.find? (fun p => p.1 = name) with
  | some p => some p.2
  | none => none

/-- `serialize` (table path): an unresolved type name returns no values
before the table is examined; otherwise walk the table into a fresh message
and encode it with the external wire codec `enc` (`SerializeToString`, an
external collaborator).  The callback path hands the message to a guest
function instead and is not modelled (guest functions are outside the value
model). -/
def serialize (enc : Descriptor → Msg → String) (pool : Pool) (name : String)
    (v : LuaValue) : M (Option String) :=
  match newmsg pool name with
  | none => .ok none
  | some d =>
    match table2msg d [] v with
    | .error e => .error e
    | .ok m => .ok (some (enc d m))

/-- `deserialize` (byte-string path): an unresolved type name returns no
values; otherwise decode the payload with the external codec `dec`
(`ParseFromArray`) and read the resulting message back into a table. -/
def deserialize (dec : Descriptor → String → Msg) (pool : Pool) (name : String)
    (data : String) : M (Option LuaValue) :=
  match newmsg pool name with
  | none => .ok none
  | some d =>
    match msg2table d (dec d data) with
    | .error e => .error e
    | .ok t => .ok (some t)

/-- The render mode option list of `debugstr`. -/
def debugModes : List String := ["debug", "short", "utf8"]

/-- Position of a string in an option list (`luaL_checkoption` lookup). -/
def findOption (s : String) : List String → Nat → Option Nat
  | [], _ => none
  | x :: r, i => if x = s then some i else findOption s r (i + 1)

/-- `luaL_checkoption`: an absent or nil argument selects the default
string; otherwise the argument must name one of the options. -/
def checkoption (v : LuaValue) (dflt : String) (lst : List String) : M Nat :=
  match v with
  | .nil =>
    match findOption dflt lst 0 with
    | some i => .ok i
    | none => .error ("invalid option " ++ dflt)
  | _ =>
    match checkstring v with
    | .error e => .error e
    | .ok s =>
      match findOption (cstr s) lst 0 with
      | some i => .ok i
      | none => .error ("invalid option " ++ cstr s)

/-- `debugstr` (byte-string path): select the render mode (default
`"short"`), resolve the type (unresolved: no values), decode the payload
with the external codec, and delegate to the selected external renderer
(`DebugString` / `ShortDebugString` / `Utf8DebugString`). -/
def debugstr (dec : Descriptor → String → Msg)
    (dbgR shortR utf8R : Descriptor → Msg → String) (pool : Pool)
    (name : String) (data : String) (mode : LuaValue) : M (Option String) :=
  match checkoption mode "short" debugModes with
  | .error e => .error e
  | .ok opt =>
    match newmsg pool name with
    | none => .ok none
    | some d =>
      let msg := dec d data
      let str := match opt with
        | 0 => dbgR d msg
        | 1 => shortR d msg
        | 2 => utf8R d msg
        | _ => ""
      .ok (some str)

/-! ## Concrete example schemas (used by witnesses and counterexamples) -/

/-- Example schema: `Person { optional string name; optional int32 age; }`. -/
def personD : Descriptor :=
  [("name", .optionalL, false, .stringK), ("age", .optionalL, false, .int32K)]

/-- Example schema with a singular enum field over `Color { RED, GREEN }`. -/
def colorD : Descriptor := [("c", .optionalL, false, .enumK ["RED", "GREEN"])]

/-- Example schema with a repeated enum field over `Color { RED, GREEN }`. -/
def colorsD : Descriptor := [("cs", .repeatedL, false, .enumK ["RED", "GREEN"])]

/-- Synthetic map-entry type: `string key, int32 value`. -/
def entryD : Descriptor :=
  [("key", .optionalL, false, .stringK), ("value", .optionalL, false, .int32K)]

/-- Example schema with one field `map<string,int32> kv`. -/
def mapD : Descriptor := [("kv", .repeatedL, true, .messageK entryD)]

/-! ## Helper lemmas -/

/-- `_setarray` is a silent no-op on a non-table value. -/
theorem setarray_nontable (f : FieldDescriptor) (m : Msg) (v : LuaValue)
    (hv : isTable v = false) : setarray f m v = .ok m := by
  cases v <;> simp [setarray] <;> simp [isTable] at hv

/-- `_setmap` is a silent no-op on a non-table value. -/
theorem setmap_nontable (f : FieldDescriptor) (m : Msg) (v : LuaValue)
    (hv : isTable v = false) : setmap f m v = .ok m := by
  cases v <;> simp [setmap] <;> simp [isTable] at hv

/-! ## Claims -/

/-- **C9.** For every type name and binary payload, calling `debugstr` with
the mode argument omitted (nil) returns the same rendered string as calling
it with explicit mode `"short"`: the default render mode is `"short"`. -/
theorem c9_debugstr_default_mode_is_short
    (dec : Descriptor → String → Msg) (dbgR shortR utf8R : Descriptor → Msg → String)
    (pool : Pool) (name data : String) :
    debugstr dec dbgR shortR utf8R pool name data .nil
      = debugstr dec dbgR shortR utf8R pool name data (.str "short") := by
  unfold debugstr
  rw [show checkoption .nil "short" debugModes = .ok 1 from rfl,
      show checkoption (.str "short") "short" debugModes = .ok 1 from rfl]

/-- **C4.** For every type name the registry does not resolve, `serialize`,
`deserialize` and `debugstr` each return an empty result (no values) and
raise no error. -/
theorem c4_unknown_type_returns_empty_no_error
    (enc : Descriptor → Msg → String) (dec : Descriptor → String → Msg)
    (dbgR shortR utf8R : Descriptor → Msg → String) (pool : Pool) (name : String)
    (v : LuaValue) (data dataD : String) (mode : LuaValue) (opt : Nat)
    (hres : newmsg pool name = none)
    (hmode : checkoption mode "short" debugModes = .ok opt) :
    serialize enc pool name v = .ok none
    ∧ deserialize dec pool name data = .ok none
    ∧ debugstr dec dbgR shortR utf8R pool name dataD mode = .ok none := by
  refine ⟨?_, ?_, ?_⟩
  · unfold serialize; rw [hres]
  · unfold deserialize; rw [hres]
  · unfold debugstr; rw [hmode, hres]

/-- Witness for C4: a concrete unresolvable type name, with valid other
arguments, for all three entry operations. -/
theorem c4_unknown_type_returns_empty_no_error_witness :
    serialize (fun _ _ => "") [("Person", personD)] "no.such.Type" (.table []) = .ok none
    ∧ deserialize (fun _ _ => []) [("Person", personD)] "no.such.Type" "" = .ok none
    ∧ debugstr (fun _ _ => []) (fun _ _ => "D") (fun _ _ => "S") (fun _ _ => "U")
        [("Person", personD)] "no.such.Type" "" .nil = .ok none :=
  c4_unknown_type_returns_empty_no_error (fun _ _ => "") (fun _ _ => [])
    (fun _ _ => "D") (fun _ _ => "S") (fun _ _ => "U") [("Person", personD)]
    "no.such.Type" (.table []) "" "" .nil 1 rfl rfl

/-- **C8.** For every repeated (array) or map field, writing a guest value
that is not a table is a silent no-op: no error is raised and the message is
unchanged. -/
theorem c8_nontable_array_map_write_is_noop (f : FieldDescriptor) (m : Msg)
    (v : LuaValue) (hrep : flabel f = .repeatedL) (hv : isTable v = false) :
    setfield f m v = .ok m := by
  unfold setfield
  rw [hrep]
  cases hmap : fismap f <;> simp only [hmap, Bool.false_eq_true, if_false, if_true]
  · exact setarray_nontable f m v hv
  · exact setmap_nontable f m v hv

/-- Witness for C8: a non-table value written to a concrete repeated field
and to a concrete map field, both silent no-ops. -/
theorem c8_nontable_array_map_write_is_noop_witness :
    setfield ("xs", .repeatedL, false, .int32K) [] (.int 5) = .ok []
    ∧ setfield ("kv", .repeatedL, true, .messageK entryD) [] (.str "oops") = .ok [] :=
  ⟨c8_nontable_array_map_write_is_noop ("xs", .repeatedL, false, .int32K) [] (.int 5) rfl rfl,
   c8_nontable_array_map_write_is_noop ("kv", .repeatedL, true, .messageK entryD) []
     (.str "oops") rfl rfl⟩

/-! ## Key/lookup lemmas -/

/-- A value is `lvBeq`-equal to a string key exactly when it is that
string. -/
theorem lvBeq_str_iff (x : LuaValue) (a : String) :
    lvBeq x (.str a) = true ↔ x = .str a := by
  cases x <;> simp [lvBeq]

/-- `find?` at a string key ignores replacement at a different string key. -/
theorem find_map_replace_str_ne (a b : String) (v : LuaValue) (h : b ≠ a) :
    ∀ t : LuaTable,
      (t.map (fun p => if lvBeq p.1 (.str a) then (LuaValue.str a, v) else p)).find?
          (fun p => lvBeq p.1 (.str b))
        = t.find? (fun p => lvBeq p.1 (.str b)) := by
  intro t
  induction t with
  | nil => rfl
  | cons p rest ih =>
    simp only [List.map_cons, List.find?_cons]
    cases hpk : lvBeq p.1 (.str a)
    · simp only [Bool.false_eq_true, if_false]
      cases hpb : lvBeq p.1 (.str b) <;> simp [hpb, ih]
    · have hp1 : p.1 = .str a := (lvBeq_str_iff p.1 a).mp hpk
      have hab : lvBeq (LuaValue.str a) (.str b) = false := by
        simp [lvBeq]
        exact fun hc => absurd hc.symm h
      simp only [if_true, hab, hp1, ih]

/-- `find?` at a string key ignores an appended pair with a different
string key. -/
theorem find_append_str_ne (a b : String) (v : LuaValue) (h : b ≠ a)
    (t : LuaTable) :
    (t ++ [(LuaValue.str a, v)]).find? (fun p => lvBeq p.1 (.str b))
      = t.find? (fun p => lvBeq p.1 (.str b)) := by
  induction t with
  | nil =>
    simp only [List.nil_append, List.find?_cons]
    have hab : lvBeq (LuaValue.str a) (.str b) = false := by
      simp [lvBeq]
      exact fun hc => absurd hc.symm h
    simp [hab, List.find?]
  | cons p rest ih =>
    simp only [List.cons_append, List.find?_cons]
    cases hpb : lvBeq p.1 (.str b) <;> simp [hpb, ih]

/-- `rawset` at one string key does not affect lookup at a different one. -/
theorem lookupT_rawset_str_ne (t : LuaTable) (a b : String) (v : LuaValue)
    (h : b ≠ a) : lookupT (rawset t (.str a) v) (.str b) = lookupT t (.str b) := by
  unfold rawset lookupT
  cases hmem : t.any fun p => lvBeq p.1 (.str a) <;>
    simp only [Bool.false_eq_true, if_false, if_true]
  · rw [find_append_str_ne a b v h t]
  · rw [find_map_replace_str_ne a b v h t]

/-- Keys never touched by the `_msg2table` field loop stay absent. -/
theorem m2tGo_lookup_none (m : Msg) (nm : String) :
    ∀ (fs : List FieldDescriptor) (acc out : LuaTable),
      lookupT acc (.str nm) = none →
      (∀ g ∈ fs, fname g ≠ nm) →
      m2tGo m acc fs = .ok out →
      lookupT out (.str nm) = none := by
  intro fs
  induction fs with
  | nil =>
    intro acc out hacc _ hrun
    simp only [m2tGo, Except.ok.injEq] at hrun
    rw [← hrun]
    exact hacc
  | cons g fs ih =>
    intro acc out hacc hnames hrun
    simp only [m2tGo] at hrun
    cases hpf : pushfield g (msgGet m (fname g)) with
    | error e => rw [hpf] at hrun; exact absurd hrun (by simp)
    | ok w =>
      rw [hpf] at hrun
      refine ih (rawset acc (.str (fname g)) w) out ?_
        (fun g2 hg2 => hnames g2 (by simp [hg2])) hrun
      rw [lookupT_rawset_str_ne _ _ _ _ (Ne.symm (hnames g (by simp)))]
      exact hacc

/-- A listed field is set. -/
theorem listFields_set (d : Descriptor) (m : Msg) :
    ∀ g ∈ listFields d m, msgGet m (fname g) ≠ [] := by
  intro g hg
  unfold listFields at hg
  have := List.of_mem_filter hg
  simpa using this

/-! ## C2 (corrected) -/

/-- **C2 as stated is false**: writing the unrecognized symbol `"PURPLE"` to
the singular enum field `c` of `colorD` does not raise; the whole walk
succeeds and the message is left untouched (the write is silently
skipped). -/
theorem c2_counterexample_singular_enum_unknown_symbol_no_error :
    table2msg colorD [] (.table [(.str "c", .str "PURPLE")]) = .ok [] := by
  simp [table2msg, t2mGo, setfield, setsingle, checkstring, findField, colorD,
    fname, flabel, fkind, show cstr "c" = "c" from rfl,
    show cstr "PURPLE" = "PURPLE" from rfl]

/-- **C2 (amended).** Writing an unrecognized enum symbol: to a *singular*
enum field the write is silently skipped (no error, no write, message
unchanged); to a *repeated* enum field the walk aborts with the hard error
`Invalid Enum In Repeated Field! <text>` naming the offending text. -/
theorem c2_amended_enum_unknown_symbol_skip_singular_error_repeated
    (f : FieldDescriptor) (m : Msg) (v : LuaValue) (syms : List String) (s : String)
    (hkind : fkind f = .enumK syms) (hs : checkstring v = .ok s)
    (hmem : cstr s ∉ syms) :
    ((flabel f = .optionalL ∨ flabel f = .requiredL) → setfield f m v = .ok m)
    ∧ (∀ (nm : String) (t : LuaTable) (i : Int) (cnt : Nat), rawgeti t i = v →
        arrGo (.enumK syms) nm t m i (cnt + 1)
          = .error ("Invalid Enum In Repeated Field! " ++ cstr s)) := by
  constructor
  · intro hlab
    unfold setfield
    rcases hlab with hlab | hlab <;>
      rw [hlab] <;> unfold setsingle <;> rw [hkind, hs] <;>
      simp only [if_neg hmem]
  · intro nm t i cnt hr
    simp only [arrGo]
    rw [hr, hs]
    simp only [if_neg hmem]

/-- Witness for the amended C2 at concrete inputs: the singular skip on
`colorD` and the repeated hard error on a one-element array. -/
theorem c2_amended_enum_unknown_symbol_skip_singular_error_repeated_witness :
    setfield ("c", .optionalL, false, .enumK ["RED", "GREEN"]) [] (.str "PURPLE") = .ok []
    ∧ arrGo (.enumK ["RED", "GREEN"]) "cs" [(.int 1, .str "PURPLE")] [] 1 1
        = .error "Invalid Enum In Repeated Field! PURPLE" := by
  have h := c2_amended_enum_unknown_symbol_skip_singular_error_repeated
    ("c", .optionalL, false, .enumK ["RED", "GREEN"]) [] (.str "PURPLE")
    ["RED", "GREEN"] "PURPLE" rfl rfl (by decide)
  exact ⟨h.1 (Or.inl rfl), h.2 "cs" [(.int 1, .str "PURPLE")] 1 0 rfl⟩

/-! ## C10 -/

/-- **C10.** Every string-kind field write stores only the bytes of the
guest string up to (excluding) its first zero byte: the singular path
(`SetString` on the `luaL_checkstring` pointer) and the repeated-element
path (`AddString`) both truncate; consequently, for a concrete guest string
with an embedded zero byte the stored value differs from the guest string
and a write-then-read round trip is not byte-exact. -/
theorem c10_string_writes_truncate_at_first_nul :
    (∀ (f : FieldDescriptor) (m : Msg) (s : String), fkind f = .stringK →
        setsingle f m (.str s) = .ok (msgSet m (fname f) [.pStr (cstr s)]))
    ∧ (∀ (nm : String) (t : LuaTable) (m : Msg) (i : Int) (cnt : Nat) (s : String),
        rawgeti t i = .str s →
        arrGo .stringK nm t m i (cnt + 1)
          = arrGo .stringK nm t (msgAdd m nm (.pStr (cstr s))) (i + 1) cnt)
    ∧ (table2msg personD []
          (.table [(.str "name", .str ("a" ++ String.singleton (Char.ofNat 0) ++ "b"))])
          = .ok [("name", [.pStr "a"])]
        ∧ msg2table personD [("name", [.pStr "a"])]
            = .ok (.table [(.str "name", .str "a")])
        ∧ ("a" : String) ≠ "a" ++ String.singleton (Char.ofNat 0) ++ "b") := by
  refine ⟨?_, ?_, ?_, ?_, ?_⟩
  · intro f m s hkind
    unfold setsingle
    rw [hkind]
    rfl
  · intro nm t m i cnt s hr
    simp only [arrGo]
    rw [hr]
    rfl
  · simp [table2msg, t2mGo, setfield, setsingle, checkstring, findField, personD,
      fname, flabel, fkind, msgSet, show cstr "name" = "name" from rfl,
      show cstr ("a" ++ String.singleton (Char.ofNat 0) ++ "b") = "a" from rfl]
  · simp [msg2table, m2tGo, listFields, pushfield, pushsingle, msgGet, personD,
      fname, flabel, fkind, slotStr, rawset]
  · decide

/-- Witness for C10 at a concrete string containing an embedded NUL:
singular and repeated-element truncation. -/
theorem c10_string_writes_truncate_at_first_nul_witness :
    setsingle ("name", .optionalL, false, .stringK) []
        (.str ("a" ++ String.singleton (Char.ofNat 0) ++ "b"))
      = .ok [("name", [.pStr "a"])]
    ∧ arrGo .stringK "xs" [(.int 1, .str ("a" ++ String.singleton (Char.ofNat 0) ++ "b"))] [] 1 1
      = arrGo .stringK "xs" [(.int 1, .str ("a" ++ String.singleton (Char.ofNat 0) ++ "b"))]
          [("xs", [.pStr "a"])] 2 0 := by
  constructor
  · have h := c10_string_writes_truncate_at_first_nul.1
      ("name", .optionalL, false, .stringK) []
      ("a" ++ String.singleton (Char.ofNat 0) ++ "b") rfl
    rw [h]
    rfl
  · have h := c10_string_writes_truncate_at_first_nul.2.1 "xs"
      [(.int 1, .str ("a" ++ String.singleton (Char.ofNat 0) ++ "b"))] [] 1 0
      ("a" ++ String.singleton (Char.ofNat 0) ++ "b") rfl
    rw [h]
    rfl

/-! ## C5 (corrected) -/

/-- **C5 as stated is false**: on the concrete schema `personD`, reading a
fresh message with both singular fields absent on the wire produces an empty
table — no key bound to a default value appears. -/
theorem c5_counterexample_absent_field_has_no_key :
    msg2table personD [] = .ok (.table []) := by
  simp [msg2table, m2tGo, listFields, personD, msgGet, fname]

/-- **C5 (amended).** `_msg2table` iterates `ListFields`, which lists only
set fields: a singular field that is absent on the wire contributes *no*
key to the reconstructed table (rather than a key bound to the schema
default). -/
theorem c5_amended_unset_singular_field_omitted
    (d : Descriptor) (m : Msg) (f : FieldDescriptor) (out : LuaTable)
    (hunset : msgGet m (fname f) = [])
    (hres : msg2table d m = .ok (.table out)) :
    lookupT out (.str (fname f)) = none := by
  unfold msg2table at hres
  cases hgo : m2tGo m [] (listFields d m) with
  | error e => rw [hgo] at hres; exact absurd hres (by simp)
  | ok t =>
    rw [hgo] at hres
    simp only [Except.ok.injEq, LuaValue.table.injEq] at hres
    subst hres
    refine m2tGo_lookup_none m (fname f) (listFields d m) [] t rfl ?_ hgo
    intro g hg hgf
    exact listFields_set d m g hg (by rw [hgf]; exact hunset)

/-- Witness for the amended C5: on `personD` with only `age` set, the
reconstructed table has no `name` key. -/
theorem c5_amended_unset_singular_field_omitted_witness :
    lookupT [(.str "age", .int 1)] (.str "name") = none := by
  refine c5_amended_unset_singular_field_omitted personD [("age", [.pInt 1])]
    ("name", .optionalL, false, .stringK) [(.str "age", .int 1)] rfl ?_
  simp [msg2table, m2tGo, listFields, pushfield, pushsingle, msgGet, personD,
    fname, flabel, fkind, slotInt, rawset]

/-! ## C1 -/

/-- The `_table2msg` loop can never succeed on a table that contains a key
resolving to no schema field. -/
theorem t2mGo_unknown_mem_not_ok
    (d : Descriptor) (k v : LuaValue) (s : String)
    (hs : checkstring k = .ok s) (hf : findField d (cstr s) = none) :
    ∀ (pairs : LuaTable) (m r : Msg), (k, v) ∈ pairs →
      t2mGo d m pairs ≠ .ok r := by
  intro pairs
  induction pairs with
  | nil => intro m r hmem; simp at hmem
  | cons p rest ih =>
    obtain ⟨k₀, v₀⟩ := p
    intro m r hmem
    rcases List.mem_cons.mp hmem with heq | hmem₂
    · simp only [Prod.mk.injEq] at heq
      obtain ⟨h₁, h₂⟩ := heq
      subst h₁
      subst h₂
      simp only [t2mGo]
      rw [hs]
      simp [hf]
    · simp only [t2mGo]
      split
      · simp
      · split
        · simp
        · split
          · simp
          · exact ih _ r hmem₂

/-- Splitting the `_table2msg` loop at a list append. -/
theorem t2mGo_append (d : Descriptor) :
    ∀ (pre post : LuaTable) (m : Msg),
      t2mGo d m (pre ++ post)
        = match t2mGo d m pre with
          | .error e => .error e
          | .ok m₁ => t2mGo d m₁ post := by
  intro pre
  induction pre with
  | nil => intro post m; simp [t2mGo]
  | cons p rest ih =>
    obtain ⟨k₀, v₀⟩ := p
    intro post m
    simp only [List.cons_append, t2mGo]
    split
    · rfl
    · split
      · rfl
      · split
        · rfl
        · exact ih post _

/-- **C1.** For every guest table containing a key that resolves to no
field of the destination schema, the marshaling walk can never succeed
(the unknown key is never silently skipped); and once the walk reaches that
key (every earlier pair processed successfully), it aborts with exactly
`invalid field <name>!` naming the offending key. -/
theorem c1_unknown_field_key_aborts_walk
    (d : Descriptor) (k v : LuaValue) (s : String)
    (hs : checkstring k = .ok s) (hf : findField d (cstr s) = none) :
    (∀ (m : Msg) (pairs : LuaTable) (r : Msg), (k, v) ∈ pairs →
        table2msg d m (.table pairs) ≠ .ok r)
    ∧ (∀ (m m₁ : Msg) (pre post : LuaTable), t2mGo d m pre = .ok m₁ →
        table2msg d m (.table (pre ++ (k, v) :: post))
          = .error ("invalid field " ++ cstr s ++ "!")) := by
  constructor
  · intro m pairs r hmem
    simp only [table2msg]
    exact t2mGo_unknown_mem_not_ok d k v s hs hf pairs m r hmem
  · intro m m₁ pre post hpre
    simp only [table2msg]
    rw [t2mGo_append d pre ((k, v) :: post) m, hpre]
    simp only [t2mGo]
    rw [hs]
    simp [hf]

/-- Witness for C1: the unknown key `"zzz"` against `personD`, as the only
pair of the table. -/
theorem c1_unknown_field_key_aborts_walk_witness :
    (∀ r : Msg, table2msg personD [] (.table [(.str "zzz", .int 1)]) ≠ .ok r)
    ∧ table2msg personD [] (.table [(.str "zzz", .int 1)])
        = .error "invalid field zzz!" := by
  have h := c1_unknown_field_key_aborts_walk personD (.str "zzz") (.int 1) "zzz" rfl rfl
  exact ⟨fun r => h.1 [] [(.str "zzz", .int 1)] r (by simp),
         h.2 [] [] [] [] (by simp [t2mGo])⟩

/-! ## C7 -/

/-- Splitting the `_pushmap` entry loop at a list append. -/
theorem mapPushGo_append (de : Descriptor) :
    ∀ (pre post : List PValue) (acc : LuaTable),
      mapPushGo de acc (pre ++ post)
        = match mapPushGo de acc pre with
          | .error e => .error e
          | .ok t => mapPushGo de t post := by
  intro pre
  induction pre with
  | nil => intro post acc; simp [mapPushGo]
  | cons e₀ rest ih =>
    intro post acc
    simp only [List.cons_append, mapPushGo]
    cases hkv : msg2kv de (pvMsg e₀) with
    | error err => rfl
    | ok kv => exact ih post (rawset acc kv.1 kv.2)

/-- An entry message that violates the key/value shape makes `_msg2kv`
fail. -/
theorem msg2kv_violating_not_ok (de : Descriptor) (e : Msg)
    (hviol : (listFields de e).length ≠ 2 ∨ findField de "key" = none
      ∨ findField de "value" = none) :
    ∀ kv, msg2kv de e ≠ .ok kv := by
  intro kv
  unfold msg2kv
  by_cases hlen : (listFields de e).length ≠ 2
  · simp [hlen]
  · simp only [hlen, if_false]
    rcases hviol with hviol | hviol | hviol
    · exact absurd hviol hlen
    · rw [hviol]; simp
    · split
      · simp
      · split
        · simp
        · rw [hviol]; simp

/-- The `_pushmap` loop can never succeed when some entry violates the
key/value shape. -/
theorem mapPushGo_violating_not_ok (de : Descriptor) (e : Msg)
    (hviol : (listFields de e).length ≠ 2 ∨ findField de "key" = none
      ∨ findField de "value" = none) :
    ∀ (entries : List PValue) (acc : LuaTable) (r : LuaTable),
      (PValue.pMsg e) ∈ entries → mapPushGo de acc entries ≠ .ok r := by
  intro entries
  induction entries with
  | nil => intro acc r hmem; simp at hmem
  | cons e₀ rest ih =>
    intro acc r hmem
    simp only [mapPushGo]
    cases hkv : msg2kv de (pvMsg e₀) with
    | error err => simp
    | ok kv =>
      rcases List.mem_cons.mp hmem with heq | hmem₂
      · subst heq
        exact absurd hkv (msg2kv_violating_not_ok de e hviol kv)
      · exact ih (rawset acc kv.1 kv.2) r hmem₂

/-- **C7.** Reading a map field checks each entry message: an entry whose
set-field count is not exactly two, or whose type lacks a `key` or `value`
field, makes the whole read abort (never a silent skip), and once the walk
reaches the offending entry the error is exactly `msg2kv size error!` /
`no key field!` / `no value field!`. -/
theorem c7_malformed_map_entry_is_hard_error
    (f : FieldDescriptor) (de : Descriptor) (m : Msg) (e : Msg)
    (pre post : List PValue) (t₁ : LuaTable)
    (hkind : fkind f = .messageK de) (hmap : fismap f = true)
    (hlab : flabel f = .repeatedL)
    (hslot : msgGet m (fname f) = pre ++ .pMsg e :: post)
    (hpre : mapPushGo de [] pre = .ok t₁) :
    (((listFields de e).length ≠ 2 ∨ findField de "key" = none
        ∨ findField de "value" = none) →
      ∀ out, pushfield f (msgGet m (fname f)) ≠ .ok out)
    ∧ ((listFields de e).length ≠ 2 →
        pushfield f (msgGet m (fname f)) = .error "msg2kv size error!")
    ∧ ((listFields de e).length = 2 → findField de "key" = none →
        pushfield f (msgGet m (fname f)) = .error "no key field!")
    ∧ (∀ kf kw, (listFields de e).length = 2 → findField de "key" = some kf →
        pushfield kf (msgGet e (fname kf)) = .ok kw →
        findField de "value" = none →
        pushfield f (msgGet m (fname f)) = .error "no value field!") := by
  have hpf : pushfield f (msgGet m (fname f))
      = match mapPushGo de [] (pre ++ PValue.pMsg e :: post) with
        | .error err => .error err
        | .ok t => .ok (.table t) := by
    unfold pushfield
    rw [hlab, hmap]
    simp only [if_true]
    unfold pushmap
    rw [hkind, hslot]
  refine ⟨?_, ?_, ?_, ?_⟩
  · intro hviol out
    rw [hpf]
    cases hrun : mapPushGo de [] (pre ++ PValue.pMsg e :: post) with
    | error err => simp [hrun]
    | ok t =>
      exact absurd hrun
        (mapPushGo_violating_not_ok de e hviol _ [] t (by simp))
  · intro hlen
    rw [hpf, mapPushGo_append de pre (PValue.pMsg e :: post) [], hpre]
    simp only [mapPushGo, pvMsg]
    rw [show msg2kv de e = .error "msg2kv size error!" by
      unfold msg2kv; simp [hlen]]
  · intro hlen hkey
    rw [hpf, mapPushGo_append de pre (PValue.pMsg e :: post) [], hpre]
    simp only [mapPushGo, pvMsg]
    rw [show msg2kv de e = .error "no key field!" by
      unfold msg2kv; simp [hlen, hkey]]
  · intro kf kw hlen hkey hpush hval
    rw [hpf, mapPushGo_append de pre (PValue.pMsg e :: post) [], hpre]
    simp only [mapPushGo, pvMsg]
    rw [show msg2kv de e = .error "no value field!" by
      unfold msg2kv; simp [hlen, hkey, hpush, hval]]

/-- Witness for C7: a map slot whose single entry has only its `key` field
set (one listed field, not two). -/
theorem c7_malformed_map_entry_is_hard_error_witness :
    pushfield ("kv", .repeatedL, true, .messageK entryD)
        (msgGet [("kv", [.pMsg [("key", [.pStr "a"])]])] "kv")
      = .error "msg2kv size error!" :=
  (c7_malformed_map_entry_is_hard_error
    ("kv", .repeatedL, true, .messageK entryD) entryD
    [("kv", [.pMsg [("key", [.pStr "a"])]])] [("key", [.pStr "a"])]
    [] [] [] rfl rfl rfl rfl (by simp [mapPushGo])).2.1 (by decide)

/-! ## Slot algebra -/

/-- Reading the field just replaced. -/
theorem msgGet_msgSet_same (n : String) (s : List PValue) :
    ∀ m : Msg, msgGet (msgSet m n s) n = s := by
  intro m
  induction m with
  | nil => simp [msgGet, msgSet]
  | cons p rest ih =>
    unfold msgSet
    by_cases h : p.1 = n
    · simp [h, msgGet]
    · simp only [h, if_false]
      unfold msgGet
      simp [h, ih]

/-- Replacing one field leaves every other field unchanged. -/
theorem msgGet_msgSet_ne (n k : String) (s : List PValue) (hk : k ≠ n) :
    ∀ m : Msg, msgGet (msgSet m n s) k = msgGet m k := by
  intro m
  induction m with
  | nil => simp [msgGet, msgSet, Ne.symm hk]
  | cons p rest ih =>
    unfold msgSet
    by_cases h : p.1 = n
    · subst h
      unfold msgGet
      simp [Ne.symm hk, fun hc : p.1 = k => hk (hc ▸ rfl)]
    · simp only [h, if_false]
      unfold msgGet
      by_cases h2 : p.1 = k <;> simp [h2, ih]

/-- Reading the field just appended to. -/
theorem msgGet_msgAdd_same (m : Msg) (n : String) (w : PValue) :
    msgGet (msgAdd m n w) n = msgGet m n ++ [w] := by
  unfold msgAdd msgAddList
  rw [msgGet_msgSet_same]

/-- Appending to one field leaves every other field unchanged. -/
theorem msgGet_msgAdd_ne (m : Msg) (n k : String) (w : PValue) (hk : k ≠ n) :
    msgGet (msgAdd m n w) k = msgGet m k := by
  unfold msgAdd msgAddList
  rw [msgGet_msgSet_ne n k _ hk]

/-- A resolved field's name is the queried name. -/
theorem findField_fname {d : Descriptor} {q : String} {g : FieldDescriptor}
    (h : findField d q = some g) : fname g = q := by
  have := List.find?_some h
  simpa using this

/-! ## Two parallel runs of the same write (for C6)

`TwoRunAppend nm m m' r r'` says: the step from `m` to `r` and the step from
`m'` to `r'` appended the *same* batch to field `nm` and left every other
field unchanged. -/

/-- Same batch appended to `nm` by two runs; all other fields untouched. -/
def TwoRunAppend (nm : String) (m m' r r' : Msg) : Prop :=
  ∃ b, (msgGet r nm = msgGet m nm ++ b ∧ msgGet r' nm = msgGet m' nm ++ b)
    ∧ ∀ k, k ≠ nm → (msgGet r k = msgGet m k ∧ msgGet r' k = msgGet m' k)

/-- The empty step. -/
theorem TwoRunAppend.refl (nm : String) (m m' : Msg) :
    TwoRunAppend nm m m' m m' :=
  ⟨[], ⟨by simp, by simp⟩, fun _ _ => ⟨rfl, rfl⟩⟩

/-- Prepending one identical element to both runs. -/
theorem TwoRunAppend.add_left {nm : String} {m m' r r' : Msg} (w : PValue)
    (h : TwoRunAppend nm (msgAdd m nm w) (msgAdd m' nm w) r r') :
    TwoRunAppend nm m m' r r' := by
  obtain ⟨b, ⟨hb1, hb2⟩, hother⟩ := h
  refine ⟨w :: b, ⟨?_, ?_⟩, fun k hk => ?_⟩
  · rw [hb1, msgGet_msgAdd_same, List.append_assoc]
    rfl
  · rw [hb2, msgGet_msgAdd_same, List.append_assoc]
    rfl
  · obtain ⟨h1, h2⟩ := hother k hk
    rw [h1, h2, msgGet_msgAdd_ne _ _ _ _ hk, msgGet_msgAdd_ne _ _ _ _ hk]
    exact ⟨rfl, rfl⟩

/-- Non-dependent unfolding of the `_setarray` message-element step. -/
theorem arrGo_messageK_eq (sub : Descriptor) (nm : String) (t : LuaTable)
    (m : Msg) (i : Int) (cnt : Nat) :
    arrGo (.messageK sub) nm t m i (cnt + 1)
      = match rawgeti t i with
        | .table tt =>
          match table2msg sub [] (.table tt) with
          | .error e => .error e
          | .ok sm => arrGo (.messageK sub) nm t (msgAdd m nm (.pMsg sm)) (i + 1) cnt
        | _ => arrGo (.messageK sub) nm t (msgAdd m nm (.pMsg [])) (i + 1) cnt := by
  simp only [arrGo]
  split
  · rename_i tt heq
    rw [heq]
  · rename_i hx
    cases hr : rawgeti t i <;> first | rfl | exact (hx _ hr).elim

/-- Two runs of the `_setarray` element loop over the same guest table
append the same batch. -/
theorem arrGo_two_run (kd : FieldKind) (nm : String) (t : LuaTable) :
    ∀ (cnt : Nat) (i : Int) (m m' r r' : Msg),
      arrGo kd nm t m i cnt = .ok r → arrGo kd nm t m' i cnt = .ok r' →
      TwoRunAppend nm m m' r r' := by
  intro cnt
  induction cnt with
  | zero =>
    intro i m m' r r' h h'
    simp only [arrGo, Except.ok.injEq] at h h'
    subst h
    subst h'
    exact TwoRunAppend.refl nm m m'
  | succ cnt ih =>
    intro i m m' r r' h h'
    cases kd with
    | int32K =>
      simp only [arrGo] at h h'
      cases hc : checkinteger (rawgeti t i) <;> simp [hc] at h h'
      exact .add_left _ (ih (i + 1) _ _ _ _ h h')
    | int64K =>
      simp only [arrGo] at h h'
      cases hc : checkinteger (rawgeti t i) <;> simp [hc] at h h'
      exact .add_left _ (ih (i + 1) _ _ _ _ h h')
    | uint32K =>
      simp only [arrGo] at h h'
      cases hc : checkinteger (rawgeti t i) <;> simp [hc] at h h'
      exact .add_left _ (ih (i + 1) _ _ _ _ h h')
    | uint64K =>
      simp only [arrGo] at h h'
      cases hc : checkinteger (rawgeti t i) <;> simp [hc] at h h'
      exact .add_left _ (ih (i + 1) _ _ _ _ h h')
    | doubleK =>
      simp only [arrGo] at h h'
      cases hc : checknumber (rawgeti t i) <;> simp [hc] at h h'
      exact .add_left _ (ih (i + 1) _ _ _ _ h h')
    | floatK =>
      simp only [arrGo] at h h'
      cases hc : checknumber (rawgeti t i) <;> simp [hc] at h h'
      exact .add_left _ (ih (i + 1) _ _ _ _ h h')
    | boolK =>
      simp only [arrGo] at h h'
      exact .add_left _ (ih (i + 1) _ _ _ _ h h')
    | stringK =>
      simp only [arrGo] at h h'
      cases hc : checkstring (rawgeti t i) <;> simp [hc] at h h'
      exact .add_left _ (ih (i + 1) _ _ _ _ h h')
    | enumK syms =>
      simp only [arrGo] at h h'
      cases hc : checkstring (rawgeti t i) with
      | error e => simp [hc] at h
      | ok s =>
        simp only [hc] at h h'
        by_cases hmem : cstr s ∈ syms
        · rw [if_pos hmem] at h h'
          exact .add_left _ (ih (i + 1) _ _ _ _ h h')
        · rw [if_neg hmem] at h
          exact absurd h (by simp)
    | messageK sub =>
      rw [arrGo_messageK_eq] at h h'
      cases hr : rawgeti t i <;> simp only [hr] at h h'
      case table tt =>
        cases hm2 : table2msg sub [] (.table tt) with
        | error e => rw [hm2] at h; exact absurd h (by simp)
        | ok sm =>
          rw [hm2] at h h'
          exact .add_left _ (ih (i + 1) _ _ _ _ h h')
      all_goals exact .add_left _ (ih (i + 1) _ _ _ _ h h')

/-- Two runs of the `_setmap` entry loop over the same guest table append
the same batch of entry messages. -/
theorem mapGo_two_run (de : Descriptor) (nm : String) :
    ∀ (pairs : LuaTable) (m m' r r' : Msg),
      mapGo de nm m pairs = .ok r → mapGo de nm m' pairs = .ok r' →
      TwoRunAppend nm m m' r r' := by
  intro pairs
  induction pairs with
  | nil =>
    intro m m' r r' h h'
    simp only [mapGo, Except.ok.injEq] at h h'
    subst h
    subst h'
    exact TwoRunAppend.refl nm m m'
  | cons p rest ih =>
    obtain ⟨k, v⟩ := p
    intro m m' r r' h h'
    simp only [mapGo] at h h'
    cases hkv : kv2msg de [] k v with
    | error e => rw [hkv] at h; exact absurd h (by simp)
    | ok ent =>
      rw [hkv] at h h'
      exact .add_left _ (ih _ _ _ _ h h')

/-- Both runs replacing the same field with the same singleton slot. -/
theorem setPair_conclusions (nm : String) (w : PValue) (m m' : Msg) :
    (∀ k, k ≠ nm → msgGet (msgSet m nm [w]) k = msgGet m k
        ∧ msgGet (msgSet m' nm [w]) k = msgGet m' k)
    ∧ msgGet (msgSet m nm [w]) nm = msgGet (msgSet m' nm [w]) nm := by
  constructor
  · intro k hk
    exact ⟨msgGet_msgSet_ne _ _ _ hk m, msgGet_msgSet_ne _ _ _ hk m'⟩
  · rw [msgGet_msgSet_same, msgGet_msgSet_same]

/-- Two runs of `_setsingle` with the same guest value: every other field is
untouched, and for non-message kinds the written field is either untouched
in both runs (the enum skip) or ends in the same state in both
(overwrite). -/
theorem setsingle_two_run (g : FieldDescriptor) (v : LuaValue) (m m' m₁ m₁' : Msg)
    (h : setsingle g m v = .ok m₁) (h' : setsingle g m' v = .ok m₁') :
    (∀ k, k ≠ fname g → msgGet m₁ k = msgGet m k ∧ msgGet m₁' k = msgGet m' k)
    ∧ ((∀ sub, fkind g ≠ .messageK sub) →
        ((msgGet m₁ (fname g) = msgGet m (fname g)
            ∧ msgGet m₁' (fname g) = msgGet m' (fname g))
          ∨ msgGet m₁ (fname g) = msgGet m₁' (fname g))) := by
  unfold setsingle at h h'
  cases hk : fkind g
  case int32K | int64K | uint32K | uint64K =>
    simp only [hk] at h h'
    cases hc : checkinteger v <;> simp [hc] at h h'
    subst h
    subst h'
    exact ⟨(setPair_conclusions _ _ m m').1,
      fun _ => Or.inr (setPair_conclusions _ _ m m').2⟩
  case doubleK | floatK =>
    simp only [hk] at h h'
    cases hc : checknumber v <;> simp [hc] at h h'
    subst h
    subst h'
    exact ⟨(setPair_conclusions _ _ m m').1,
      fun _ => Or.inr (setPair_conclusions _ _ m m').2⟩
  case boolK =>
    simp only [hk] at h h'
    simp only [Except.ok.injEq] at h h'
    subst h
    subst h'
    exact ⟨(setPair_conclusions _ _ m m').1,
      fun _ => Or.inr (setPair_conclusions _ _ m m').2⟩
  case enumK syms =>
    simp only [hk] at h h'
    cases hc : checkstring v <;> simp [hc] at h h'
    rename_i s
    by_cases hmem : cstr s ∈ syms
    · rw [if_pos hmem] at h h'
      simp only [Except.ok.injEq] at h h'
      subst h
      subst h'
      exact ⟨(setPair_conclusions _ _ m m').1,
        fun _ => Or.inr (setPair_conclusions _ _ m m').2⟩
    · rw [if_neg hmem] at h h'
      simp only [Except.ok.injEq] at h h'
      subst h
      subst h'
      exact ⟨fun k _ => ⟨rfl, rfl⟩, fun _ => Or.inl ⟨rfl, rfl⟩⟩
  case stringK =>
    simp only [hk] at h h'
    cases hc : checkstring v <;> simp [hc] at h h'
    subst h
    subst h'
    exact ⟨(setPair_conclusions _ _ m m').1,
      fun _ => Or.inr (setPair_conclusions _ _ m m').2⟩
  case messageK sub =>
    simp only [hk] at h h'
    cases hsm : table2msg sub (currentSub m (fname g)) v <;> simp [hsm] at h
    cases hsm2 : table2msg sub (currentSub m' (fname g)) v <;> simp [hsm2] at h'
    subst h
    subst h'
    refine ⟨fun k hk2 => ⟨msgGet_msgSet_ne _ _ _ hk2 m, msgGet_msgSet_ne _ _ _ hk2 m'⟩,
      fun hne => (hne sub rfl).elim⟩

/-- Two runs of `_setfield` with the same guest value: every other field is
untouched; a repeated field receives the same appended batch in both runs;
a singular non-message field is either untouched in both runs or ends in
the same state in both. -/
theorem setfield_two_run (g : FieldDescriptor) (v : LuaValue) (m m' m₁ m₁' : Msg)
    (h : setfield g m v = .ok m₁) (h' : setfield g m' v = .ok m₁') :
    (∀ k, k ≠ fname g → msgGet m₁ k = msgGet m k ∧ msgGet m₁' k = msgGet m' k)
    ∧ (flabel g = .repeatedL →
        ∃ b, msgGet m₁ (fname g) = msgGet m (fname g) ++ b
           ∧ msgGet m₁' (fname g) = msgGet m' (fname g) ++ b)
    ∧ ((flabel g = .optionalL ∨ flabel g = .requiredL) →
        (∀ sub, fkind g ≠ .messageK sub) →
        ((msgGet m₁ (fname g) = msgGet m (fname g)
            ∧ msgGet m₁' (fname g) = msgGet m' (fname g))
          ∨ msgGet m₁ (fname g) = msgGet m₁' (fname g))) := by
  unfold setfield at h h'
  cases hlab : flabel g
  case optionalL | requiredL =>
    simp only [hlab] at h h'
    obtain ⟨ha, hc⟩ := setsingle_two_run g v m m' m₁ m₁' h h'
    exact ⟨ha, fun hrep => Label.noConfusion hrep, fun _ => hc⟩
  case repeatedL =>
    simp only [hlab] at h h'
    have habsurd : ¬ (Label.repeatedL = .optionalL ∨ Label.repeatedL = .requiredL) := by
      simp
    cases hmap : fismap g <;> simp only [hmap, Bool.false_eq_true, if_false, if_true] at h h'
    · -- array
      cases v <;> simp only [setarray] at h h'
      case table t =>
        obtain ⟨b, ⟨hb1, hb2⟩, hother⟩ := arrGo_two_run (fkind g) (fname g) t _ _ _ _ _ _ h h'
        exact ⟨fun k hk => hother k hk, fun _ => ⟨b, hb1, hb2⟩,
          fun hl _ => absurd hl habsurd⟩
      all_goals
        simp only [Except.ok.injEq] at h h'
        subst h
        subst h'
        exact ⟨fun k _ => ⟨rfl, rfl⟩, fun _ => ⟨[], by simp, by simp⟩,
          fun hl _ => absurd hl habsurd⟩
    · -- map
      cases v <;> simp only [setmap] at h h'
      case table t =>
        cases hk : fkind g <;> simp only [hk] at h h'
        case messageK sub =>
          obtain ⟨b, ⟨hb1, hb2⟩, hother⟩ := mapGo_two_run sub (fname g) t _ _ _ _ h h'
          exact ⟨fun k hk2 => hother k hk2, fun _ => ⟨b, hb1, hb2⟩,
            fun hl _ => absurd hl habsurd⟩
        all_goals exact absurd h (by simp)
      all_goals
        simp only [Except.ok.injEq] at h h'
        subst h
        subst h'
        exact ⟨fun k _ => ⟨rfl, rfl⟩, fun _ => ⟨[], by simp, by simp⟩,
          fun hl _ => absurd hl habsurd⟩

/-- Two runs of the `_table2msg` loop over the same guest table, from two
different starting messages: each repeated field receives the same appended
batch in both runs, and each singular non-message field is either untouched
in both or ends in the same state in both. -/
theorem t2mGo_two_run (d : Descriptor) :
    ∀ (pairs : LuaTable) (m m' r r' : Msg),
      t2mGo d m pairs = .ok r → t2mGo d m' pairs = .ok r' →
      ∀ (n : String) (g : FieldDescriptor), findField d n = some g →
        ((flabel g = .repeatedL →
           ∃ b, msgGet r n = msgGet m n ++ b ∧ msgGet r' n = msgGet m' n ++ b)
         ∧ ((flabel g = .optionalL ∨ flabel g = .requiredL) →
            (∀ sub, fkind g ≠ .messageK sub) →
            ((msgGet r n = msgGet m n ∧ msgGet r' n = msgGet m' n)
              ∨ msgGet r n = msgGet r' n))) := by
  intro pairs
  induction pairs with
  | nil =>
    intro m m' r r' h h' n g hng
    simp only [t2mGo, Except.ok.injEq] at h h'
    subst h
    subst h'
    exact ⟨fun _ => ⟨[], by simp, by simp⟩, fun _ _ => Or.inl ⟨rfl, rfl⟩⟩
  | cons p rest ih =>
    obtain ⟨k₀, v₀⟩ := p
    intro m m' r r' h h' n g hng
    simp only [t2mGo] at h h'
    cases hs0 : checkstring k₀ with
    | error e => simp [hs0] at h
    | ok s₀ =>
      simp only [hs0] at h h'
      cases hff : findField d (cstr s₀) with
      | none => simp [hff] at h
      | some g₀ =>
        simp only [hff] at h h'
        cases hsf : setfield g₀ m v₀ with
        | error e => simp [hsf] at h
        | ok m₁ =>
          simp only [hsf] at h
          cases hsf2 : setfield g₀ m' v₀ with
          | error e => simp [hsf2] at h'
          | ok m₁2 =>
            simp only [hsf2] at h'
            obtain ⟨hstepA, hstepB, hstepC⟩ :=
              setfield_two_run g₀ v₀ m m' m₁ m₁2 hsf hsf2
            obtain ⟨hihB, hihC⟩ := ih m₁ m₁2 r r' h h' n g hng
            by_cases hn : n = fname g₀
            · have hgg : g = g₀ := by
                have hq : fname g₀ = cstr s₀ := findField_fname hff
                rw [hn, hq] at hng
                rw [hng] at hff
                exact Option.some.inj hff
              subst hgg
              constructor
              · intro hrep
                obtain ⟨b₀, hb01, hb02⟩ := hstepB hrep
                obtain ⟨b₁, hb11, hb12⟩ := hihB hrep
                refine ⟨b₀ ++ b₁, ?_, ?_⟩
                · rw [hb11, hn, hb01, List.append_assoc]
                · rw [hb12, hn, hb02, List.append_assoc]
              · intro hl hnm
                rcases hihC hl hnm with ⟨hi1, hi2⟩ | hi3
                · rcases hstepC hl hnm with ⟨hs1, hs2⟩ | hs3
                  · exact Or.inl ⟨by rw [hi1, hn, hs1], by rw [hi2, hn, hs2]⟩
                  · exact Or.inr (by rw [hi1, hi2, hn, hs3])
                · exact Or.inr hi3
            · obtain ⟨hu1, hu2⟩ := hstepA n hn
              constructor
              · intro hrep
                obtain ⟨b₁, hb11, hb12⟩ := hihB hrep
                exact ⟨b₁, by rw [hb11, hu1], by rw [hb12, hu2]⟩
              · intro hl hnm
                rcases hihC hl hnm with ⟨hi1, hi2⟩ | hi3
                · exact Or.inl ⟨by rw [hi1, hu1], by rw [hi2, hu2]⟩
                · exact Or.inr hi3

/-- **C6.** Running `_table2msg` twice with the same guest table: each
repeated (array or map) field receives the same batch of elements appended
again by the second run (duplicate elements), while each singular
non-message (scalar) field ends in its last-written state — the second run
leaves it exactly as the first run did. -/
theorem c6_second_write_appends_repeated_overwrites_singular
    (d : Descriptor) (T : LuaValue) (m₀ r₁ r₂ : Msg)
    (h₁ : table2msg d m₀ T = .ok r₁) (h₂ : table2msg d r₁ T = .ok r₂) :
    ∀ (n : String) (g : FieldDescriptor), findField d n = some g →
      ((flabel g = .repeatedL →
         ∃ b, msgGet r₁ n = msgGet m₀ n ++ b ∧ msgGet r₂ n = msgGet r₁ n ++ b)
       ∧ ((flabel g = .optionalL ∨ flabel g = .requiredL) →
          (∀ sub, fkind g ≠ .messageK sub) →
          msgGet r₂ n = msgGet r₁ n)) := by
  intro n g hng
  cases T <;> simp only [table2msg, Except.ok.injEq] at h₁ h₂
  case table pairs =>
    obtain ⟨hB, hC⟩ := t2mGo_two_run d pairs m₀ r₁ r₁ r₂ h₁ h₂ n g hng
    refine ⟨hB, fun hl hnm => ?_⟩
    rcases hC hl hnm with ⟨hi1, hi2⟩ | hi3
    · rw [hi2, hi1]
    · exact hi3.symm
  all_goals
    subst h₁
    subst h₂
    exact ⟨fun _ => ⟨[], by simp, by simp⟩, fun _ _ => rfl⟩

/-- Witness for C6 on a concrete schema: a repeated int32 field and a
singular string field written twice with the same table. -/
theorem c6_second_write_appends_repeated_overwrites_singular_witness :
    (∃ b, msgGet [("xs", [.pInt 1, .pInt 2]), ("name", [.pStr "a"])] "xs"
            = msgGet ([] : Msg) "xs" ++ b
        ∧ msgGet [("xs", [.pInt 1, .pInt 2, .pInt 1, .pInt 2]), ("name", [.pStr "a"])] "xs"
            = msgGet [("xs", [.pInt 1, .pInt 2]), ("name", [.pStr "a"])] "xs" ++ b)
    ∧ msgGet [("xs", [.pInt 1, .pInt 2, .pInt 1, .pInt 2]), ("name", [.pStr "a"])] "name"
        = msgGet [("xs", [.pInt 1, .pInt 2]), ("name", [.pStr "a"])] "name" := by
  have hrun1 : table2msg
      [("xs", (.repeatedL : Label), false, (.int32K : FieldKind)),
       ("name", (.optionalL : Label), false, (.stringK : FieldKind))] []
      (.table [(.str "xs", .table [(.int 1, .int 1), (.int 2, .int 2)]),
               (.str "name", .str "a")])
      = .ok [("xs", [.pInt 1, .pInt 2]), ("name", [.pStr "a"])] := by
    simp [table2msg, t2mGo, setfield, setsingle, setarray, arrGo, rawlen, rawlenGo,
      hasIntKey, rawgeti, lvBeq, checkstring, checkinteger, findField, fname, flabel,
      fkind, fismap, msgSet, msgAdd, msgAddList, msgGet, wrapS,
      show cstr "xs" = "xs" from rfl, show cstr "name" = "name" from rfl,
      show cstr "a" = "a" from rfl]
  have hrun2 : table2msg
      [("xs", (.repeatedL : Label), false, (.int32K : FieldKind)),
       ("name", (.optionalL : Label), false, (.stringK : FieldKind))]
      [("xs", [.pInt 1, .pInt 2]), ("name", [.pStr "a"])]
      (.table [(.str "xs", .table [(.int 1, .int 1), (.int 2, .int 2)]),
               (.str "name", .str "a")])
      = .ok [("xs", [.pInt 1, .pInt 2, .pInt 1, .pInt 2]), ("name", [.pStr "a"])] := by
    simp [table2msg, t2mGo, setfield, setsingle, setarray, arrGo, rawlen, rawlenGo,
      hasIntKey, rawgeti, lvBeq, checkstring, checkinteger, findField, fname, flabel,
      fkind, fismap, msgSet, msgAdd, msgAddList, msgGet, wrapS,
      show cstr "xs" = "xs" from rfl, show cstr "name" = "name" from rfl,
      show cstr "a" = "a" from rfl]
  have h := c6_second_write_appends_repeated_overwrites_singular
    [("xs", .repeatedL, false, .int32K), ("name", .optionalL, false, .stringK)]
    (.table [(.str "xs", .table [(.int 1, .int 1), (.int 2, .int 2)]),
             (.str "name", .str "a")])
    [] [("xs", [.pInt 1, .pInt 2]), ("name", [.pStr "a"])]
    [("xs", [.pInt 1, .pInt 2, .pInt 1, .pInt 2]), ("name", [.pStr "a"])]
    hrun1 hrun2
  exact ⟨(h "xs" ("xs", .repeatedL, false, .int32K) rfl).1 rfl,
    (h "name" ("name", .optionalL, false, .stringK) rfl).2 (Or.inl rfl)
      (fun sub hc => FieldKind.noConfusion hc)⟩

/-! ## Structural table equivalence (for C3)

Two guest values are semantically equal when scalars are raw-equal and
tables bind an equivalent value to every key of the other (keys compared by
Lua raw equality, order irrelevant). -/

mutual

/-- Raw equality is reflexive. -/
theorem lvBeq_refl : ∀ v : LuaValue, lvBeq v v = true
  | .nil => rfl
  | .boolean b => by simp [lvBeq]
  | .int n => by simp [lvBeq]
  | .num q => by simp [lvBeq]
  | .str s => by simp [lvBeq]
  | .table t => by
    simp only [lvBeq]
    exact lvlBeq_refl t

/-- Pairwise raw equality is reflexive. -/
theorem lvlBeq_refl : ∀ l : LuaTable, lvlBeq l l = true
  | [] => rfl
  | (k, v) :: r => by
    simp only [lvlBeq, Bool.and_eq_true]
    exact ⟨⟨lvBeq_refl k, lvBeq_refl v⟩, lvlBeq_refl r⟩

end

mutual

/-- Semantic equivalence of guest values: scalars by raw equality, tables
by key-wise equivalence in both directions (independent of pair order). -/
def tequiv : LuaValue → LuaValue → Bool
  | .table a, .table b =>
    tequivL a b && b.all (fun p => (lookupT a p.1).isSome)
  | x, y => lvBeq x y
termination_by x _ => (sizeOf x, 1)

/-- Every pair of the first table maps, under the second table, to an
equivalent value. -/
def tequivL : List (LuaValue × LuaValue) → LuaTable → Bool
  | [], _ => true
  | (k, v) :: rest, b =>
    (match lookupT b k with
     | some w => tequiv v w
     | none => false)
    && tequivL rest b
termination_by l _ => (sizeOf l, 0)

end

/-- On non-table values `tequiv` is raw equality. -/
theorem tequiv_eq_lvBeq (x y : LuaValue) (hx : isTable x = false) :
    tequiv x y = lvBeq x y := by
  cases x <;> cases y <;> first | (unfold tequiv; rfl) | simp [isTable] at hx

/-- If every pair of `a` maps to an equivalent value in `out`, the forward
half of table equivalence holds. -/
theorem tequivL_of_lookup :
    ∀ (a out : LuaTable),
      (∀ p ∈ a, ∃ w, lookupT out p.1 = some w ∧ tequiv p.2 w = true) →
      tequivL a out = true := by
  intro a out h
  induction a with
  | nil => simp [tequivL]
  | cons p rest ih =>
    obtain ⟨k, v⟩ := p
    obtain ⟨w, hw, ht⟩ := h (k, v) (by simp)
    simp only [tequivL, Bool.and_eq_true]
    rw [hw]
    exact ⟨ht, ih (fun q hq => h q (by simp [hq]))⟩

/-! ## Well-typedness of a guest table for a schema (for C3)

`wt*` formalizes "correctly-typed values" for the round-trip claim, plus
the restrictions the code forces: integer values within the target type's
range, floats exactly representable in binary32, strings and enum symbols
without embedded NUL bytes, enum symbols recognized, repeated/map values
non-empty canonical tables, distinct keys. -/

/-- Singular (non-repeated) label. -/
def isSingular (f : FieldDescriptor) : Bool :=
  match flabel f with
  | .optionalL | .requiredL => true
  | .repeatedL => false

/-- Non-message kind. -/
def nonMsgKind : FieldKind → Bool
  | .messageK _ => false
  | _ => true

/-- The string keys of a guest table (in order). -/
def tKeys : LuaTable → List String
  | [] => []
  | (.str s, _) :: rest => s :: tKeys rest
  | _ :: rest => tKeys rest

/-- Pairwise raw-distinct keys (both orientations of `lvBeq`). -/
def keysDistinct : LuaTable → Bool
  | [] => true
  | (k, _) :: rest =>
    rest.all (fun p => !lvBeq p.1 k && !lvBeq k p.1) && keysDistinct rest

mutual

/-- Well-typed guest value for a field (label-dispatched). -/
def wtVal (f : FieldDescriptor) (v : LuaValue) : Bool :=
  match flabel f with
  | .optionalL => wtSingle (fkind f) v
  | .requiredL => wtSingle (fkind f) v
  | .repeatedL => if fismap f then wtMapV (fkind f) v else wtArrV (fkind f) v
termination_by (sizeOf v, 5)

/-- Well-typed guest value for a map field: a non-empty table of scalar
keys and well-typed values, for a message-kind entry type. -/
def wtMapV : FieldKind → LuaValue → Bool
  | .messageK de, .table t => wtMapT de t && !t.isEmpty
  | _, _ => false
termination_by _ v => (sizeOf v, 4)

/-- Well-typed guest value for a non-map repeated field: a non-empty
canonical sequence of well-typed elements. -/
def wtArrV (kd : FieldKind) : LuaValue → Bool
  | .table t => wtArr kd t 1 && !t.isEmpty
  | _ => false
termination_by v => (sizeOf v, 4)

/-- Well-typed guest value for one singular slot / one array element. -/
def wtSingle : FieldKind → LuaValue → Bool
  | .int32K, .int n => decide (-(2 ^ 31) ≤ n ∧ n < 2 ^ 31)
  | .int64K, .int n => decide (-(2 ^ 63) ≤ n ∧ n < 2 ^ 63)
  | .uint32K, .int n => decide (0 ≤ n ∧ n < 2 ^ 32)
  | .uint64K, .int n => decide (0 ≤ n ∧ n < 2 ^ 63)
  | .doubleK, .num _ => true
  | .floatK, .num q => decide (f32 q = q)
  | .boolK, .boolean _ => true
  | .stringK, .str s => decide (cstr s = s)
  | .enumK syms, .str s => decide (cstr s = s) && decide (s ∈ syms)
  | .messageK sub, .table t => wtTable sub t
  | _, _ => false
termination_by _ v => (sizeOf v, 4)

/-- Well-typed guest table for a message type. -/
def wtTable (d : Descriptor) (pairs : LuaTable) : Bool :=
  wtPairs d pairs && decide (tKeys pairs).Nodup
termination_by (sizeOf pairs, 3)

/-- Every pair binds a schema field name (no NUL) to a well-typed value. -/
def wtPairs : Descriptor → LuaTable → Bool
  | _, [] => true
  | d, (k, v) :: rest =>
    (match k with
     | .str s =>
       decide (cstr s = s)
         && (match findField d s with
             | some f => wtVal f v
             | none => false)
     | _ => false)
    && wtPairs d rest
termination_by _ pairs => (sizeOf pairs, 2)

/-- Canonical non-empty sequence `t = [(i, v_i), (i+1, v_{i+1}), ...]` of
well-typed elements. -/
def wtArr : FieldKind → LuaTable → Int → Bool
  | _, [], _ => true
  | kd, (k, v) :: rest, i =>
    (match k with
     | .int j => decide (j = i)
     | _ => false)
    && wtSingle kd v && wtArr kd rest (i + 1)
termination_by _ t _ => (sizeOf t, 3)

/-- Well-typed guest table for a map field with the synthetic two-field
entry type `[key, value]`. -/
def wtMapT (de : Descriptor) (t : LuaTable) : Bool :=
  match de with
  | [kf, vf] =>
    decide (fname kf = "key") && decide (fname vf = "value")
      && isSingular kf && isSingular vf && nonMsgKind (fkind kf)
      && keysDistinct t && wtMapPairs kf vf t
  | _ => false
termination_by (sizeOf t, 3)

/-- Every map pair has a well-typed scalar key and well-typed value. -/
def wtMapPairs (kf vf : FieldDescriptor) : LuaTable → Bool
  | [] => true
  | (k, v) :: rest =>
    wtSingle (fkind kf) k && wtSingle (fkind vf) v && wtMapPairs kf vf rest
termination_by t => (sizeOf t, 2)

end

mutual

/-- Well-formed descriptor: field names are distinct, recursively. -/
def wfD (d : Descriptor) : Bool :=
  decide ((d.map fname).Nodup) && wfFields d
termination_by (sizeOf d, 2)

/-- Kind-wise well-formedness of a field list. -/
def wfFields : Descriptor → Bool
  | [] => true
  | (_, _, _, kd) :: rest => wfKind kd && wfFields rest
termination_by d => (sizeOf d, 1)

/-- Message kinds carry well-formed sub-descriptors. -/
def wfKind : FieldKind → Bool
  | .messageK sub => wfD sub
  | _ => true
termination_by kd => (sizeOf kd, 3)

end

/-! ## Canonical sequences, lookups, machine-integer identities -/

/-- Destructuring a canonical sequence. -/
theorem wtArr_cons {kd : FieldKind} {k v : LuaValue} {rest : LuaTable} {i : Int}
    (h : wtArr kd ((k, v) :: rest) i = true) :
    k = .int i ∧ wtSingle kd v = true ∧ wtArr kd rest (i + 1) = true := by
  unfold wtArr at h
  simp only [Bool.and_eq_true] at h
  obtain ⟨⟨hk, hv⟩, hrest⟩ := h
  cases k <;> simp at hk
  exact ⟨by rw [hk], hv, hrest⟩

/-- `t[i]` of a table headed by key `i`. -/
theorem rawgeti_cons_self (i : Int) (v : LuaValue) (rest : LuaTable) :
    rawgeti ((LuaValue.int i, v) :: rest) i = v := by
  simp [rawgeti, List.find?_cons, lvBeq]

/-- `t[j]` skips a head pair with a raw-different key. -/
theorem rawgeti_cons_ne (j : Int) (k v : LuaValue) (rest : LuaTable)
    (hk : lvBeq k (.int j) = false) :
    rawgeti ((k, v) :: rest) j = rawgeti rest j := by
  simp [rawgeti, List.find?_cons, hk]

/-- Key range of a canonical sequence. -/
theorem wtArr_hasIntKey {kd : FieldKind} :
    ∀ (vs : LuaTable) (i : Int), wtArr kd vs i = true →
      ∀ j : Int, hasIntKey vs j = true ↔ (i ≤ j ∧ j < i + vs.length) := by
  intro vs
  induction vs with
  | nil =>
    intro i _ j
    simp [hasIntKey]
  | cons p rest ih =>
    obtain ⟨k, v⟩ := p
    intro i h j
    obtain ⟨hk, _, hrest⟩ := wtArr_cons h
    subst hk
    have hih := ih (i + 1) hrest j
    by_cases hj : j = i
    · subst hj
      simp [hasIntKey, lvBeq]
    · have hbeq : lvBeq (LuaValue.int i) (.int j) = false := by
        simp [lvBeq]
        omega
      simp only [hasIntKey, List.any_cons, hbeq, Bool.false_or] at *
      rw [hih]
      simp only [List.length_cons]
      omega

/-- Counting consecutive keys of a canonical sequence. -/
theorem rawlenGo_count (vs : LuaTable) (n : Nat)
    (hkeys : ∀ j : Int, hasIntKey vs j = true ↔ (1 ≤ j ∧ j ≤ n)) :
    ∀ (fuel c : Nat), c ≤ n → n ≤ c + fuel → rawlenGo vs c fuel = n := by
  intro fuel
  induction fuel with
  | zero =>
    intro c h1 h2
    simp only [rawlenGo]
    omega
  | succ fuel ih =>
    intro c h1 h2
    simp only [rawlenGo]
    by_cases hc : c < n
    · have : hasIntKey vs ((c : Int) + 1) = true := by
        rw [hkeys]
        constructor <;> omega
      rw [this]
      simp only [if_true]
      exact ih (c + 1) (by omega) (by omega)
    · have hcn : c = n := by omega
      subst hcn
      have : hasIntKey vs ((c : Int) + 1) = false := by
        cases hv : hasIntKey vs ((c : Int) + 1)
        · rfl
        · rw [hkeys] at hv
          omega
      rw [this]
      simp

/-- `lua_rawlen` of a canonical sequence is its element count. -/
theorem rawlen_canonical {kd : FieldKind} {vs : LuaTable}
    (h : wtArr kd vs 1 = true) : rawlen vs = vs.length := by
  unfold rawlen
  refine rawlenGo_count vs vs.length ?_ vs.length 0 (by omega) (by omega)
  intro j
  rw [wtArr_hasIntKey vs 1 h j]
  omega

/-- `lookupT` through a head pair with matching key. -/
theorem lookupT_cons_pos {p : LuaValue × LuaValue} {t : LuaTable} {k : LuaValue}
    (hp : lvBeq p.1 k = true) : lookupT (p :: t) k = some p.2 := by
  simp [lookupT, List.find?_cons, hp]

/-- `lookupT` through a head pair with a different key. -/
theorem lookupT_cons_neg {p : LuaValue × LuaValue} {t : LuaTable} {k : LuaValue}
    (hp : lvBeq p.1 k = false) : lookupT (p :: t) k = lookupT t k := by
  simp [lookupT, List.find?_cons, hp]

/-- `lookupT` prefers the left part of an append when it hits. -/
theorem lookupT_append_left {t₁ : LuaTable} {k : LuaValue} {w : LuaValue}
    (t₂ : LuaTable) (h : lookupT t₁ k = some w) :
    lookupT (t₁ ++ t₂) k = some w := by
  induction t₁ with
  | nil => simp [lookupT] at h
  | cons p rest ih =>
    cases hp : lvBeq p.1 k
    · rw [lookupT_cons_neg hp] at h
      rw [List.cons_append, lookupT_cons_neg hp]
      exact ih h
    · rw [lookupT_cons_pos hp] at h
      rw [List.cons_append, lookupT_cons_pos hp]
      exact h

/-- `lookupT` falls through to the right part of an append on a miss. -/
theorem lookupT_append_right {t₁ : LuaTable} {k : LuaValue}
    (t₂ : LuaTable) (h : lookupT t₁ k = none) :
    lookupT (t₁ ++ t₂) k = lookupT t₂ k := by
  induction t₁ with
  | nil => simp
  | cons p rest ih =>
    cases hp : lvBeq p.1 k
    · rw [lookupT_cons_neg hp] at h
      rw [List.cons_append, lookupT_cons_neg hp]
      exact ih h
    · rw [lookupT_cons_pos hp] at h
      simp at h

/-- `rawset` on an absent key appends. -/
theorem rawset_fresh {t : LuaTable} {k : LuaValue} (v : LuaValue)
    (h : ∀ p ∈ t, lvBeq p.1 k = false) : rawset t k v = t ++ [(k, v)] := by
  unfold rawset
  rw [if_neg]
  intro hc
  simp only [List.any_eq_true] at hc
  obtain ⟨p, hp, hbeq⟩ := hc
  rw [h p hp] at hbeq
  exact Bool.noConfusion hbeq

/-- Two's-complement identity on in-range int32 values. -/
theorem wrapS32_id {n : Int} (h1 : -2147483648 ≤ n) (h2 : n < 2147483648) :
    wrapS 32 n = n := by
  unfold wrapS
  norm_num
  omega

/-- Two's-complement identity on in-range int64 values. -/
theorem wrapS64_id {n : Int} (h1 : -9223372036854775808 ≤ n)
    (h2 : n < 9223372036854775808) : wrapS 64 n = n := by
  unfold wrapS
  norm_num
  omega

/-- Unsigned identity on in-range uint32 values. -/
theorem wrapU32_id {n : Int} (h1 : 0 ≤ n) (h2 : n < 4294967296) :
    wrapU 32 n = n := by
  unfold wrapU
  norm_num
  omega

/-- Unsigned identity on in-range uint64 values. -/
theorem wrapU64_id {n : Int} (h1 : 0 ≤ n) (h2 : n < 18446744073709551616) :
    wrapU 64 n = n := by
  unfold wrapU
  norm_num
  omega

/-- A well-typed singular scalar value is stored by `_setsingle` and read
back by `_pushsingle` byte-for-byte / value-for-value exactly. -/
theorem scalar_write_read (f : FieldDescriptor) (v : LuaValue) (m : Msg)
    (hnm : nonMsgKind (fkind f) = true) (hwt : wtSingle (fkind f) v = true) :
    ∃ w, setsingle f m v = .ok (msgSet m (fname f) [w])
       ∧ pushsingle f [w] = .ok v := by
  cases hk : fkind f
  case int32K =>
    rw [hk] at hwt
    cases v <;> simp [wtSingle] at hwt
    rename_i n
    refine ⟨.pInt n, ?_, ?_⟩
    · unfold setsingle
      rw [hk]
      simp [checkinteger, wrapS32_id hwt.1 hwt.2]
    · unfold pushsingle
      rw [hk]
      simp [slotInt]
  case int64K =>
    rw [hk] at hwt
    cases v <;> simp [wtSingle] at hwt
    rename_i n
    refine ⟨.pInt n, ?_, ?_⟩
    · unfold setsingle
      rw [hk]
      simp [checkinteger, wrapS64_id hwt.1 hwt.2]
    · unfold pushsingle
      rw [hk]
      simp [slotInt]
  case uint32K =>
    rw [hk] at hwt
    cases v <;> simp [wtSingle] at hwt
    rename_i n
    refine ⟨.pInt n, ?_, ?_⟩
    · unfold setsingle
      rw [hk]
      simp [checkinteger, wrapU32_id hwt.1 hwt.2]
    · unfold pushsingle
      rw [hk]
      simp [slotInt]
  case uint64K =>
    rw [hk] at hwt
    cases v <;> simp [wtSingle] at hwt
    rename_i n
    refine ⟨.pInt n, ?_, ?_⟩
    · unfold setsingle
      rw [hk]
      simp [checkinteger, wrapU64_id hwt.1 (by omega)]
    · unfold pushsingle
      rw [hk]
      simp [slotInt, wrapS64_id (by omega : -9223372036854775808 ≤ n) (by omega)]
  case doubleK =>
    rw [hk] at hwt
    cases v <;> simp [wtSingle] at hwt
    rename_i q
    refine ⟨.pNum q, ?_, ?_⟩
    · unfold setsingle
      rw [hk]
      simp [checknumber]
    · unfold pushsingle
      rw [hk]
      simp [slotNum]
  case floatK =>
    rw [hk] at hwt
    cases v <;> simp [wtSingle] at hwt
    rename_i q
    refine ⟨.pNum q, ?_, ?_⟩
    · unfold setsingle
      rw [hk]
      simp [checknumber, hwt]
    · unfold pushsingle
      rw [hk]
      simp [slotNum]
  case boolK =>
    rw [hk] at hwt
    cases v <;> simp [wtSingle] at hwt
    rename_i b
    refine ⟨.pBool b, ?_, ?_⟩
    · unfold setsingle
      rw [hk]
      simp [toboolean]
    · unfold pushsingle
      rw [hk]
      simp [slotBool]
  case stringK =>
    rw [hk] at hwt
    cases v <;> simp [wtSingle] at hwt
    rename_i s
    refine ⟨.pStr s, ?_, ?_⟩
    · unfold setsingle
      rw [hk]
      simp [checkstring, hwt]
    · unfold pushsingle
      rw [hk]
      simp [slotStr]
  case enumK syms =>
    rw [hk] at hwt
    cases v <;> simp [wtSingle] at hwt
    rename_i s
    obtain ⟨hc, hmem⟩ := hwt
    refine ⟨.pEnum s, ?_, ?_⟩
    · unfold setsingle
      rw [hk]
      simp [checkstring, hc, hmem]
    · unfold pushsingle
      rw [hk]
  case messageK sub =>
    rw [hk] at hnm
    simp [nonMsgKind] at hnm

/-! ## Round-trip support: membership, lookup and descriptor lemmas (for C3) -/

/-- A pair's value is smaller than the enclosing table value
(termination bookkeeping for the round-trip induction). -/
theorem mem_snd_sizeOf_lt {p : LuaValue × LuaValue} {t : LuaTable}
    (h : p ∈ t) : sizeOf p.2 < sizeOf (LuaValue.table t) := by
  have h1 : sizeOf p < sizeOf t := List.sizeOf_lt_of_mem h
  have h2 : sizeOf p.2 < sizeOf p := by
    obtain ⟨a, b⟩ := p
    simp_arith
  have h3 : sizeOf (LuaValue.table t) = 1 + sizeOf t := by simp_arith
  omega

/-- A key raw-distinct from every key of the table is absent. -/
theorem lookupT_eq_none {t : LuaTable} {k : LuaValue}
    (h : ∀ p ∈ t, lvBeq p.1 k = false) : lookupT t k = none := by
  unfold lookupT
  have hf : t.find? (fun p => lvBeq p.1 k) = none :=
    List.find?_eq_none.mpr (fun p hp => by simp [h p hp])
  rw [hf]

/-- A key present in the table is found. -/
theorem lookupT_isSome_of_mem {t : LuaTable} {kk vv : LuaValue}
    (h : (kk, vv) ∈ t) : (lookupT t kk).isSome = true := by
  unfold lookupT
  cases hf : t.find? (fun p => lvBeq p.1 kk) with
  | some p => simp
  | none =>
    rw [List.find?_eq_none] at hf
    have := hf (kk, vv) h
    simp [lvBeq_refl] at this

/-- Every listed string key comes from a pair of the table. -/
theorem tKeys_mem_exists : ∀ (t : LuaTable) (s : String),
    s ∈ tKeys t → ∃ v, (LuaValue.str s, v) ∈ t := by
  intro t
  induction t with
  | nil => intro s h; simp [tKeys] at h
  | cons p rest ih =>
    intro s h
    obtain ⟨k, v⟩ := p
    cases k
    case str s0 =>
      simp only [tKeys, List.mem_cons] at h
      rcases h with h | h
      · exact ⟨v, by simp [h]⟩
      · obtain ⟨w, hw⟩ := ih s h
        exact ⟨w, by simp [hw]⟩
    all_goals
      simp only [tKeys] at h
      obtain ⟨w, hw⟩ := ih s h
      exact ⟨w, by simp [hw]⟩

/-- A pair with a string key contributes its key to `tKeys`. -/
theorem tKeys_of_mem : ∀ (t : LuaTable) (s : String) (v : LuaValue),
    (LuaValue.str s, v) ∈ t → s ∈ tKeys t := by
  intro t
  induction t with
  | nil => intro s v h; simp at h
  | cons p rest ih =>
    intro s v h
    cases h with
    | head => simp [tKeys]
    | tail _ h =>
      obtain ⟨k, w⟩ := p
      cases k
      case str s0 =>
        simp only [tKeys, List.mem_cons]
        exact Or.inr (ih s v h)
      all_goals
        simp only [tKeys]
        exact ih s v h

/-- Membership in `ListFields`. -/
theorem listFields_mem_iff {d : Descriptor} {m : Msg} {f : FieldDescriptor} :
    f ∈ listFields d m ↔ f ∈ d ∧ msgGet m (fname f) ≠ [] := by
  unfold listFields
  rw [List.mem_filter]
  simp

/-- A resolved field is a field of the descriptor. -/
theorem findField_mem {d : Descriptor} {s : String} {f : FieldDescriptor}
    (h : findField d s = some f) : f ∈ d :=
  List.mem_of_find?_eq_some h

/-- With distinct field names, looking a member field up by its own name
resolves to that field. -/
theorem findField_self_of_nodup : ∀ {d : Descriptor} {f : FieldDescriptor},
    (d.map fname).Nodup → f ∈ d → findField d (fname f) = some f := by
  intro d
  induction d with
  | nil => intro f _ hmem; simp at hmem
  | cons g rest ih =>
    intro f hnd hmem
    rcases List.mem_cons.mp hmem with h | h
    · subst h
      simp [findField, List.find?_cons]
    · have hg : fname g ≠ fname f := by
        have hnotin := (List.nodup_cons.mp hnd).1
        intro hc
        exact hnotin (hc ▸ List.mem_map_of_mem fname h)
      have hstep : findField (g :: rest) (fname f) = findField rest (fname f) := by
        simp only [findField, List.find?_cons]
        rw [show (decide (fname g = fname f)) = false by simp [hg]]
      rw [hstep]
      exact ih (List.nodup_cons.mp hnd).2 h

/-- Each field of a kind-wise well-formed list has a well-formed kind. -/
theorem wfFields_mem : ∀ {d : Descriptor}, wfFields d = true →
    ∀ f ∈ d, wfKind (fkind f) = true := by
  intro d
  induction d with
  | nil => intro _ f hf; simp at hf
  | cons g rest ih =>
    obtain ⟨a, b, c, kd⟩ := g
    intro h f hf
    simp only [wfFields, Bool.and_eq_true] at h
    rcases List.mem_cons.mp hf with hf | hf
    · subst hf
      exact h.1
    · exact ih h.2 f hf

/-- Unpacking a well-formed descriptor. -/
theorem wfD_parts {d : Descriptor} (h : wfD d = true) :
    (d.map fname).Nodup ∧ ∀ f ∈ d, wfKind (fkind f) = true := by
  unfold wfD at h
  simp only [Bool.and_eq_true, decide_eq_true_eq] at h
  exact ⟨h.1, wfFields_mem h.2⟩

/-- A well-formed message kind carries a well-formed sub-descriptor. -/
theorem wfKind_messageK {sub : Descriptor} (h : wfKind (.messageK sub) = true) :
    wfD sub = true := by
  simp only [wfKind] at h
  exact h

/-- Non-message kinds are vacuously well-formed. -/
theorem nonMsgKind_wfKind {kd : FieldKind} (h : nonMsgKind kd = true) :
    wfKind kd = true := by
  cases kd
  case messageK sub => simp [nonMsgKind] at h
  all_goals simp [wfKind]

/-- A well-typed value of a non-message kind is never a table. -/
theorem wtSingle_not_table {kd : FieldKind} {v : LuaValue}
    (hk : nonMsgKind kd = true) (hv : wtSingle kd v = true) :
    isTable v = false := by
  cases v <;> try rfl
  cases kd
  case messageK sub => simp [nonMsgKind] at hk
  all_goals simp [wtSingle] at hv

/-- Every key of a canonical sequence is an integer at or above the base. -/
theorem wtArr_mem_key {kd : FieldKind} :
    ∀ (t : LuaTable) (i : Int), wtArr kd t i = true →
      ∀ p ∈ t, ∃ j : Int, p.1 = .int j ∧ i ≤ j := by
  intro t
  induction t with
  | nil => intro i _ p hp; simp at hp
  | cons q rest ih =>
    obtain ⟨key, v⟩ := q
    intro i h p hp
    obtain ⟨hkey, _, hrest⟩ := wtArr_cons h
    subst hkey
    rcases List.mem_cons.mp hp with hp | hp
    · subst hp
      exact ⟨i, rfl, le_refl i⟩
    · obtain ⟨j, hj, hge⟩ := ih (i + 1) hrest p hp
      exact ⟨j, hj, by omega⟩

/-- Indexing a canonical sequence: `t[i + k]` is the `k`-th element. -/
theorem canonical_rawgeti {kd : FieldKind} :
    ∀ (t : LuaTable) (i : Int), wtArr kd t i = true →
      ∀ (k : Nat) (hk : k < t.length), rawgeti t (i + k) = (t.get ⟨k, hk⟩).2 := by
  intro t
  induction t with
  | nil => intro i _ k hk; simp at hk
  | cons p rest ih =>
    obtain ⟨key, v⟩ := p
    intro i h k hk
    obtain ⟨hkey, _, hrest⟩ := wtArr_cons h
    subst hkey
    cases k with
    | zero =>
      have : i + ((0 : Nat) : Int) = i := by simp
      rw [this]
      exact rawgeti_cons_self i v rest
    | succ k =>
      have hne : lvBeq (LuaValue.int i) (.int (i + ((k + 1 : Nat) : Int))) = false := by
        simp [lvBeq]
        omega
      rw [rawgeti_cons_ne _ _ v rest hne]
      have hcast : i + ((k + 1 : Nat) : Int) = (i + 1) + (k : Int) := by
        push_cast
        ring
      rw [hcast]
      rw [ih (i + 1) hrest k (by simpa using hk)]
      rfl

/-- Each element of a canonical sequence is well-typed. -/
theorem wtArr_snd_wt {kd : FieldKind} :
    ∀ (t : LuaTable) (i : Int), wtArr kd t i = true →
      ∀ p ∈ t, wtSingle kd p.2 = true := by
  intro t
  induction t with
  | nil => intro i _ p hp; simp at hp
  | cons q rest ih =>
    obtain ⟨key, v⟩ := q
    intro i h p hp
    obtain ⟨_, hv, hrest⟩ := wtArr_cons h
    rcases List.mem_cons.mp hp with hp | hp
    · subst hp
      exact hv
    · exact ih (i + 1) hrest p hp

/-- The keys of a canonical sequence are pairwise raw-distinct. -/
theorem wtArr_keysDistinct {kd : FieldKind} :
    ∀ (t : LuaTable) (i : Int), wtArr kd t i = true → keysDistinct t = true := by
  intro t
  induction t with
  | nil => intro i _; rfl
  | cons q rest ih =>
    obtain ⟨key, v⟩ := q
    intro i h
    obtain ⟨hkey, _, hrest⟩ := wtArr_cons h
    subst hkey
    simp only [keysDistinct, Bool.and_eq_true]
    refine ⟨?_, ih (i + 1) hrest⟩
    rw [List.all_eq_true]
    intro p hp
    obtain ⟨j, hj, hge⟩ := wtArr_mem_key rest (i + 1) hrest p hp
    rw [hj]
    simp [lvBeq]
    omega

/-! ## Aligned tables and read-loop assembly (for C3) -/

/-- Destructuring pairwise-distinct keys. -/
theorem keysDistinct_cons {k v : LuaValue} {rest : LuaTable}
    (h : keysDistinct ((k, v) :: rest) = true) :
    (∀ p ∈ rest, lvBeq p.1 k = false ∧ lvBeq k p.1 = false)
      ∧ keysDistinct rest = true := by
  simp only [keysDistinct, Bool.and_eq_true, List.all_eq_true] at h
  refine ⟨fun p hp => ?_, h.2⟩
  have h1 := h.1 p hp
  simp only [Bool.and_eq_true, Bool.not_eq_true'] at h1
  exact h1

/-- Two tables are aligned when they pair off with equal keys and
equivalent values in the same order. -/
def alignedP (p q : LuaValue × LuaValue) : Prop :=
  p.1 = q.1 ∧ tequiv p.2 q.2 = true

/-- A matching partner on the left exists for every right member. -/
theorem forall₂_mem_right {α β : Type} {R : α → β → Prop} :
    ∀ {l₁ : List α} {l₂ : List β}, List.Forall₂ R l₁ l₂ →
      ∀ b ∈ l₂, ∃ a ∈ l₁, R a b := by
  intro l₁ l₂ h
  induction h with
  | nil => intro b hb; simp at hb
  | @cons a₀ b₀ t₁ t₂ ha hrest ih =>
    intro b hb
    cases hb with
    | head => exact ⟨a₀, List.mem_cons_self a₀ t₁, ha⟩
    | tail _ hb =>
      obtain ⟨a, hm, hr⟩ := ih b hb
      exact ⟨a, List.mem_cons_of_mem a₀ hm, hr⟩

/-- In an aligned pair of tables with distinct keys, every left pair is
found on the right with an equivalent value. -/
theorem aligned_lookup {t kvs : LuaTable} (h : List.Forall₂ alignedP t kvs) :
    keysDistinct t = true →
      ∀ p ∈ t, ∃ w, lookupT kvs p.1 = some w ∧ tequiv p.2 w = true := by
  induction h with
  | nil => intro _ p hp; simp at hp
  | @cons p₀ q₀ t' kvs' ha hrest ih =>
    intro hd p hp
    obtain ⟨k0, v0⟩ := p₀
    obtain ⟨hdk, hdrest⟩ := keysDistinct_cons hd
    cases hp with
    | head =>
      refine ⟨q₀.2, ?_, ha.2⟩
      have hb : lvBeq q₀.1 (k0, v0).1 = true := by
        rw [← ha.1]
        exact lvBeq_refl _
      exact lookupT_cons_pos hb
    | tail _ hp =>
      have hne : lvBeq q₀.1 p.1 = false := by
        rw [← ha.1]
        exact (hdk p hp).2
      rw [lookupT_cons_neg hne]
      exact ih hdrest p hp

/-- In key-aligned tables, every right key is present on the left. -/
theorem aligned_rev {t kvs : LuaTable}
    (h : List.Forall₂ (fun p q : LuaValue × LuaValue => p.1 = q.1) t kvs) :
    ∀ q ∈ kvs, (lookupT t q.1).isSome = true := by
  induction h with
  | nil => intro q hq; simp at hq
  | @cons p₀ q₀ t' kvs' ha hrest ih =>
    intro q hq
    cases hq with
    | head =>
      have hb : lvBeq p₀.1 q₀.1 = true := by
        rw [ha]
        exact lvBeq_refl _
      rw [lookupT_cons_pos hb]
      rfl
    | tail _ hq =>
      cases hbeq : lvBeq p₀.1 q.1
      · rw [lookupT_cons_neg hbeq]
        exact ih q hq
      · rw [lookupT_cons_pos hbeq]
        rfl

/-- Aligned tables with distinct keys are semantically equivalent. -/
theorem tequiv_aligned {t kvs : LuaTable}
    (h : List.Forall₂ alignedP t kvs) (hd : keysDistinct t = true) :
    tequiv (.table t) (.table kvs) = true := by
  unfold tequiv
  simp only [Bool.and_eq_true]
  constructor
  · exact tequivL_of_lookup t kvs (aligned_lookup h hd)
  · rw [List.all_eq_true]
    intro q hq
    exact aligned_rev (h.imp (fun a b hab => hab.1)) q hq

/-- Key distinctness transports along key alignment. -/
theorem keysDistinct_of_aligned {t kvs : LuaTable}
    (h : List.Forall₂ (fun p q : LuaValue × LuaValue => p.1 = q.1) t kvs)
    (hd : keysDistinct t = true) : keysDistinct kvs = true := by
  induction h with
  | nil => rfl
  | @cons p₀ q₀ t' kvs' ha hrest ih =>
    obtain ⟨a0, b0⟩ := p₀
    obtain ⟨k0, w0⟩ := q₀
    obtain ⟨hdk, hdrest⟩ := keysDistinct_cons hd
    simp only [keysDistinct, Bool.and_eq_true]
    refine ⟨?_, ih hdrest⟩
    rw [List.all_eq_true]
    intro q hq
    obtain ⟨p, hpmem, hpk⟩ := forall₂_mem_right hrest q hq
    have hk : a0 = k0 := ha
    have h1 := (hdk p hpmem).1
    have h2 := (hdk p hpmem).2
    rw [← hpk, ← hk]
    simp [h1, h2]

/-- The canonical sequence table with values `ws` and integer keys
ascending from `i`. -/
def idxPairs (i : Int) : List LuaValue → LuaTable
  | [] => []
  | w :: ws => (.int i, w) :: idxPairs (i + 1) ws

/-- How the `_pusharray` loop pushes one stored element of each kind. -/
def elemRead (kd : FieldKind) (e : PValue) (v : LuaValue) : Prop :=
  match kd with
  | .int32K | .int64K | .uint32K => v = .int (pvInt e)
  | .uint64K => v = .int (wrapS 64 (pvInt e))
  | .doubleK | .floatK => v = .num (pvNum e)
  | .boolK => v = .boolean (pvBool e)
  | .enumK _ => ∃ sym, e = .pEnum sym ∧ v = .str sym
  | .stringK => v = .str (pvStr e)
  | .messageK sub => ∃ s, e = .pMsg s ∧ msg2table sub s = .ok v

/-- Appending the current index keeps all larger indices fresh. -/
theorem arr_fresh_step {acc : LuaTable} {i : Int} {w : LuaValue}
    (hfresh : ∀ p ∈ acc, ∀ j : Int, i ≤ j → lvBeq p.1 (.int j) = false) :
    ∀ p ∈ acc ++ [(LuaValue.int i, w)], ∀ j : Int, i + 1 ≤ j →
      lvBeq p.1 (.int j) = false := by
  intro p hp j hj
  rcases List.mem_append.mp hp with hp | hp
  · exact hfresh p hp j (by omega)
  · simp at hp
    subst hp
    simp [lvBeq]
    omega

/-- The `_pusharray` element loop lays the pushed elements out as the
canonical sequence appended to the accumulator. -/
theorem arrPushGo_assemble {kd : FieldKind} :
    ∀ {ps : List PValue} {ws : List LuaValue},
      List.Forall₂ (elemRead kd) ps ws →
      ∀ (acc : LuaTable) (i : Int),
        (∀ p ∈ acc, ∀ j : Int, i ≤ j → lvBeq p.1 (.int j) = false) →
        arrPushGo kd acc i ps = .ok (acc ++ idxPairs i ws) := by
  intro ps ws h
  induction h with
  | nil =>
    intro acc i _
    simp [arrPushGo, idxPairs]
  | @cons e w ps' ws' he hrest ih =>
    intro acc i hfresh
    cases kd with
    | int32K =>
      simp only [elemRead] at he
      simp only [arrPushGo]
      rw [rawset_fresh _ (fun p hp => hfresh p hp i le_rfl), ← he,
          ih _ _ (arr_fresh_step hfresh)]
      simp [idxPairs]
    | int64K =>
      simp only [elemRead] at he
      simp only [arrPushGo]
      rw [rawset_fresh _ (fun p hp => hfresh p hp i le_rfl), ← he,
          ih _ _ (arr_fresh_step hfresh)]
      simp [idxPairs]
    | uint32K =>
      simp only [elemRead] at he
      simp only [arrPushGo]
      rw [rawset_fresh _ (fun p hp => hfresh p hp i le_rfl), ← he,
          ih _ _ (arr_fresh_step hfresh)]
      simp [idxPairs]
    | uint64K =>
      simp only [elemRead] at he
      simp only [arrPushGo]
      rw [rawset_fresh _ (fun p hp => hfresh p hp i le_rfl), ← he,
          ih _ _ (arr_fresh_step hfresh)]
      simp [idxPairs]
    | doubleK =>
      simp only [elemRead] at he
      simp only [arrPushGo]
      rw [rawset_fresh _ (fun p hp => hfresh p hp i le_rfl), ← he,
          ih _ _ (arr_fresh_step hfresh)]
      simp [idxPairs]
    | floatK =>
      simp only [elemRead] at he
      simp only [arrPushGo]
      rw [rawset_fresh _ (fun p hp => hfresh p hp i le_rfl), ← he,
          ih _ _ (arr_fresh_step hfresh)]
      simp [idxPairs]
    | boolK =>
      simp only [elemRead] at he
      simp only [arrPushGo]
      rw [rawset_fresh _ (fun p hp => hfresh p hp i le_rfl), ← he,
          ih _ _ (arr_fresh_step hfresh)]
      simp [idxPairs]
    | stringK =>
      simp only [elemRead] at he
      simp only [arrPushGo]
      rw [rawset_fresh _ (fun p hp => hfresh p hp i le_rfl), ← he,
          ih _ _ (arr_fresh_step hfresh)]
      simp [idxPairs]
    | enumK syms =>
      simp only [elemRead] at he
      obtain ⟨sym, hsym, hw⟩ := he
      subst hsym
      simp only [arrPushGo]
      rw [rawset_fresh _ (fun p hp => hfresh p hp i le_rfl), ← hw,
          ih _ _ (arr_fresh_step hfresh)]
      simp [idxPairs]
    | messageK sub =>
      simp only [elemRead] at he
      obtain ⟨s, hs, hm⟩ := he
      subst hs
      simp only [arrPushGo, hm]
      rw [rawset_fresh _ (fun p hp => hfresh p hp i le_rfl),
          ih _ _ (arr_fresh_step hfresh)]
      simp [idxPairs]

/-- A canonical guest sequence is aligned with the canonical sequence of
the pushed-back elements. -/
theorem wtArr_aligned {kd : FieldKind} :
    ∀ (t : LuaTable) (i : Int) (ws : List LuaValue),
      wtArr kd t i = true →
      List.Forall₂ (fun v w => tequiv v w = true) (t.map (fun p => p.2)) ws →
      List.Forall₂ alignedP t (idxPairs i ws) := by
  intro t
  induction t with
  | nil =>
    intro i ws _ hf
    simp only [List.map_nil] at hf
    cases hf
    exact List.Forall₂.nil
  | cons p rest ih =>
    obtain ⟨key, v⟩ := p
    intro i ws h hf
    obtain ⟨hkey, _, hrest⟩ := wtArr_cons h
    subst hkey
    simp only [List.map_cons] at hf
    cases hf with
    | cons hv hws =>
      rename_i w ws'
      simp only [idxPairs]
      exact List.Forall₂.cons ⟨rfl, hv⟩ (ih (i + 1) ws' hrest hws)

/-- The `_pushmap` entry loop lays the read-back pairs out in entry order
after the accumulator. -/
theorem mapPushGo_assemble {de : Descriptor} :
    ∀ {ps : List PValue} {kvs : LuaTable},
      List.Forall₂ (fun e kv => msg2kv de (pvMsg e) = .ok kv) ps kvs →
      keysDistinct kvs = true →
      ∀ acc : LuaTable,
        (∀ kv ∈ kvs, ∀ p ∈ acc, lvBeq p.1 kv.1 = false) →
        mapPushGo de acc ps = .ok (acc ++ kvs) := by
  intro ps kvs h
  induction h with
  | nil =>
    intro _ acc _
    simp [mapPushGo]
  | @cons e kv ps' kvs' he hrest ih =>
    intro hd acc hfresh
    obtain ⟨kk, vv⟩ := kv
    obtain ⟨hdk, hdrest⟩ := keysDistinct_cons hd
    simp only [mapPushGo, he]
    rw [rawset_fresh _ (fun p hp => hfresh (kk, vv) (List.mem_cons_self _ _) p hp)]
    rw [ih hdrest (acc ++ [(kk, vv)]) ?_]
    · simp
    · intro kv₂ hkv₂ p hp
      rcases List.mem_append.mp hp with hp | hp
      · exact hfresh kv₂ (List.mem_cons_of_mem _ hkv₂) p hp
      · simp at hp
        subst hp
        exact (hdk kv₂ hkv₂).2

/-! ## The table walk round trip (for C3) -/

/-- Destructuring one well-typed guest pair. -/
theorem wtPairs_cons {d : Descriptor} {k v : LuaValue} {rest : LuaTable}
    (h : wtPairs d ((k, v) :: rest) = true) :
    (∃ s f, k = .str s ∧ cstr s = s ∧ findField d s = some f ∧ wtVal f v = true)
      ∧ wtPairs d rest = true := by
  unfold wtPairs at h
  simp only [Bool.and_eq_true] at h
  obtain ⟨h1, h2⟩ := h
  refine ⟨?_, h2⟩
  cases k
  case str s =>
    simp only [Bool.and_eq_true, decide_eq_true_eq] at h1
    obtain ⟨hc, h1⟩ := h1
    cases hf : findField d s with
    | none =>
      rw [hf] at h1
      simp at h1
    | some f =>
      rw [hf] at h1
      exact ⟨s, f, rfl, hc, hf, h1⟩
  all_goals simp at h1

/-- One guest pair has been marshaled into the message and reads back
equivalent: the witness state of the walk round trip. -/
def PairDone (d : Descriptor) (m : Msg) (p : LuaValue × LuaValue) : Prop :=
  ∃ s f w, p.1 = .str s ∧ findField d s = some f ∧ msgGet m s ≠ []
    ∧ pushfield f (msgGet m s) = .ok w ∧ tequiv p.2 w = true

/-- The `_table2msg` loop: given a per-pair field round trip, a run over
well-typed pairs with fresh distinct keys succeeds, touches only the
written fields, and leaves every pair readable back. -/
theorem t2mGo_roundtrip {d : Descriptor} :
    ∀ (pairs : LuaTable) (m : Msg),
      (∀ p ∈ pairs, ∀ (f : FieldDescriptor) (m₀ : Msg),
         wfKind (fkind f) = true → wtVal f p.2 = true →
         msgGet m₀ (fname f) = [] →
         ∃ m₁, setfield f m₀ p.2 = .ok m₁
           ∧ msgGet m₁ (fname f) ≠ []
           ∧ (∀ k, k ≠ fname f → msgGet m₁ k = msgGet m₀ k)
           ∧ ∃ w, pushfield f (msgGet m₁ (fname f)) = .ok w
               ∧ tequiv p.2 w = true) →
      wfD d = true → wtPairs d pairs = true → (tKeys pairs).Nodup →
      (∀ s ∈ tKeys pairs, msgGet m s = []) →
      ∃ m₂, t2mGo d m pairs = .ok m₂
        ∧ (∀ k, k ∉ tKeys pairs → msgGet m₂ k = msgGet m k)
        ∧ (∀ p ∈ pairs, PairDone d m₂ p) := by
  intro pairs
  induction pairs with
  | nil =>
    intro m _ _ _ _ _
    exact ⟨m, by simp [t2mGo], fun k _ => rfl, fun p hp => absurd hp (by simp)⟩
  | cons pr rest ih =>
    obtain ⟨k, v⟩ := pr
    intro m hS1 hwf hwt hnd hempty
    obtain ⟨⟨s, f, hk, hcs, hff, hwv⟩, hwrest⟩ := wtPairs_cons hwt
    subst hk
    have hfn : fname f = s := findField_fname hff
    have hwk : wfKind (fkind f) = true :=
      (wfD_parts hwf).2 f (findField_mem hff)
    have hms : msgGet m (fname f) = [] := by
      rw [hfn]
      exact hempty s (by simp [tKeys])
    obtain ⟨m₁, hsf, hne₁, hframe₁, w, hpf, htq⟩ :=
      hS1 (.str s, v) (List.mem_cons_self _ _) f m hwk hwv hms
    have hstep : t2mGo d m ((LuaValue.str s, v) :: rest) = t2mGo d m₁ rest := by
      simp only [t2mGo, checkstring, hcs, hff, hsf]
    simp only [tKeys] at hnd
    have hns : s ∉ tKeys rest := (List.nodup_cons.mp hnd).1
    have hndrest : (tKeys rest).Nodup := (List.nodup_cons.mp hnd).2
    have hempty2 : ∀ s₂ ∈ tKeys rest, msgGet m₁ s₂ = [] := by
      intro s₂ hs₂
      have hne : s₂ ≠ s := fun hc => hns (hc ▸ hs₂)
      rw [hframe₁ s₂ (by rw [hfn]; exact hne)]
      exact hempty s₂ (by simp [tKeys, hs₂])
    obtain ⟨m₂, hrec, hframe₂, hdone₂⟩ :=
      ih m₁ (fun p hp => hS1 p (List.mem_cons_of_mem _ hp)) hwf hwrest hndrest hempty2
    refine ⟨m₂, by rw [hstep]; exact hrec, ?_, ?_⟩
    · intro k₂ hk₂
      simp only [tKeys, List.mem_cons, not_or] at hk₂
      rw [hframe₂ k₂ hk₂.2, hframe₁ k₂ (by rw [hfn]; exact hk₂.1)]
    · intro p hp
      cases hp with
      | head =>
        refine ⟨s, f, w, rfl, hff, ?_, ?_, htq⟩
        · rw [hframe₂ s hns, ← hfn]
          exact hne₁
        · rw [hframe₂ s hns, ← hfn]
          exact hpf
      | tail _ hp => exact hdone₂ p hp

/-- The `_msg2table` field loop: when every listed field pushes, the loop
builds the accumulator followed by one pair per field, looked up by name. -/
theorem m2tGo_assemble (m : Msg) :
    ∀ (fs : List FieldDescriptor) (acc : LuaTable),
      (∀ f ∈ fs, ∃ w, pushfield f (msgGet m (fname f)) = .ok w) →
      (fs.map fname).Nodup →
      (∀ f ∈ fs, ∀ p ∈ acc, lvBeq p.1 (.str (fname f)) = false) →
      ∃ out, m2tGo m acc fs = .ok out
        ∧ (∀ q ∈ out, q ∈ acc ∨ ∃ f ∈ fs, q.1 = .str (fname f)
             ∧ pushfield f (msgGet m (fname f)) = .ok q.2)
        ∧ (∀ f ∈ fs, ∃ w, lookupT out (.str (fname f)) = some w
             ∧ pushfield f (msgGet m (fname f)) = .ok w)
        ∧ (∀ k, (∀ f ∈ fs, lvBeq k (.str (fname f)) = false
              ∧ lvBeq (.str (fname f)) k = false) →
            lookupT out k = lookupT acc k) := by
  intro fs
  induction fs with
  | nil =>
    intro acc _ _ _
    exact ⟨acc, by simp [m2tGo], fun q hq => Or.inl hq,
           fun f hf => absurd hf (by simp), fun k _ => rfl⟩
  | cons g fs ih =>
    intro acc hpush hnd hfresh
    obtain ⟨w, hw⟩ := hpush g (List.mem_cons_self _ _)
    have hstep : m2tGo m acc (g :: fs)
        = m2tGo m (rawset acc (.str (fname g)) w) fs := by
      simp only [m2tGo, hw]
    have hset : rawset acc (.str (fname g)) w = acc ++ [(.str (fname g), w)] :=
      rawset_fresh w (fun p hp => hfresh g (List.mem_cons_self _ _) p hp)
    have hgn : fname g ∉ fs.map fname := (List.nodup_cons.mp hnd).1
    have hnd2 : (fs.map fname).Nodup := (List.nodup_cons.mp hnd).2
    have hfresh2 : ∀ f ∈ fs, ∀ p ∈ acc ++ [(LuaValue.str (fname g), w)],
        lvBeq p.1 (.str (fname f)) = false := by
      intro f hf p hp
      rcases List.mem_append.mp hp with hp | hp
      · exact hfresh f (List.mem_cons_of_mem _ hf) p hp
      · simp at hp
        subst hp
        have hne : fname g ≠ fname f :=
          fun hc => hgn (hc ▸ List.mem_map_of_mem fname hf)
        simp [lvBeq, hne]
    obtain ⟨out, hrec, hmem, hlook, hframe⟩ :=
      ih (acc ++ [(.str (fname g), w)])
         (fun f hf => hpush f (List.mem_cons_of_mem _ hf)) hnd2 hfresh2
    refine ⟨out, ?_, ?_, ?_, ?_⟩
    · rw [hstep, hset]
      exact hrec
    · intro q hq
      rcases hmem q hq with hq2 | hq2
      · rcases List.mem_append.mp hq2 with hq3 | hq3
        · exact Or.inl hq3
        · simp at hq3
          subst hq3
          exact Or.inr ⟨g, List.mem_cons_self _ _, rfl, hw⟩
      · obtain ⟨f, hf, hkey, hpf⟩ := hq2
        exact Or.inr ⟨f, List.mem_cons_of_mem _ hf, hkey, hpf⟩
    · intro f hf
      rcases List.mem_cons.mp hf with hf | hf
      · subst hf
        have hdiff : ∀ f₂ ∈ fs, lvBeq (LuaValue.str (fname f)) (.str (fname f₂)) = false
              ∧ lvBeq (LuaValue.str (fname f₂)) (.str (fname f)) = false := by
          intro f₂ hf₂
          have hne : fname f ≠ fname f₂ :=
            fun hc => hgn (hc ▸ List.mem_map_of_mem fname hf₂)
          exact ⟨by simp [lvBeq, hne], by simp [lvBeq, Ne.symm hne]⟩
        rw [hframe _ hdiff]
        rw [lookupT_append_right _ (lookupT_eq_none
              (fun p hp => hfresh f (List.mem_cons_self _ _) p hp))]
        exact ⟨w, lookupT_cons_pos (by simp [lvBeq]), hw⟩
      · exact hlook f hf
    · intro k hk
      have hk2 : ∀ f ∈ fs, lvBeq k (.str (fname f)) = false
          ∧ lvBeq (.str (fname f)) k = false :=
        fun f hf => hk f (List.mem_cons_of_mem _ hf)
      rw [hframe k hk2]
      cases hacc : lookupT acc k with
      | some w₂ =>
        exact lookupT_append_left _ hacc
      | none =>
        rw [lookupT_append_right _ hacc]
        exact lookupT_eq_none (fun p hp => by
          simp at hp
          subst hp
          exact (hk g (List.mem_cons_self _ _)).2)

/-- Assembling `_msg2table` from the walk's witness state: the set fields
are exactly the written keys, each pushes back, and the resulting table is
equivalent to the guest table. -/
theorem msg2table_of_done {d : Descriptor} {tt : LuaTable} {m : Msg}
    (hnd : (d.map fname).Nodup)
    (hframe : ∀ k, k ∉ tKeys tt → msgGet m k = [])
    (hdone : ∀ p ∈ tt, PairDone d m p) :
    ∃ out, msg2table d m = .ok (.table out)
      ∧ tequiv (.table tt) (.table out) = true := by
  have hlf_nd : ((listFields d m).map fname).Nodup := by
    have hsub : List.Sublist (listFields d m) d := List.filter_sublist d
    exact List.Nodup.sublist (List.Sublist.map fname hsub) hnd
  have hpush : ∀ f ∈ listFields d m,
      ∃ w, pushfield f (msgGet m (fname f)) = .ok w := by
    intro f hf
    obtain ⟨hfd, hne⟩ := listFields_mem_iff.mp hf
    have hkey : fname f ∈ tKeys tt := by
      by_contra hc
      exact hne (hframe _ hc)
    obtain ⟨v, hv⟩ := tKeys_mem_exists tt (fname f) hkey
    obtain ⟨s, f₂, w, hps, hff₂, hms, hpf, _⟩ := hdone _ hv
    have hs : s = fname f := by
      have h4 := hps
      injection h4 with h5
      exact h5.symm
    subst hs
    have hf₂ : f₂ = f := by
      have h3 := findField_self_of_nodup hnd hfd
      rw [hff₂] at h3
      exact Option.some.inj h3
    subst hf₂
    exact ⟨w, hpf⟩
  obtain ⟨out, hm2, hmem, hlook, _⟩ :=
    m2tGo_assemble m (listFields d m) [] hpush hlf_nd
      (by intro f _ p hp; simp at hp)
  refine ⟨out, ?_, ?_⟩
  · unfold msg2table
    rw [hm2]
  · unfold tequiv
    simp only [Bool.and_eq_true]
    constructor
    · apply tequivL_of_lookup
      intro p hp
      obtain ⟨s, f₂, w, hps, hff₂, hms, hpf, htq⟩ := hdone p hp
      have hfn₂ : fname f₂ = s := findField_fname hff₂
      have hf₂mem : f₂ ∈ listFields d m := by
        rw [listFields_mem_iff]
        exact ⟨findField_mem hff₂, by rw [hfn₂]; exact hms⟩
      obtain ⟨w₂, hlk, hpf₂⟩ := hlook f₂ hf₂mem
      rw [hfn₂, hpf] at hpf₂
      have hw : w = w₂ := by
        injection hpf₂ with h6
      refine ⟨w₂, ?_, ?_⟩
      · rw [hps, ← hfn₂]
        exact hlk
      · rw [← hw]
        exact htq
    · rw [List.all_eq_true]
      intro q hq
      rcases hmem q hq with hq2 | hq2
      · simp at hq2
      · obtain ⟨f, hf, hkey, _⟩ := hq2
        obtain ⟨hfd, hne⟩ := listFields_mem_iff.mp hf
        have hkey2 : fname f ∈ tKeys tt := by
          by_contra hc
          exact hne (hframe _ hc)
        obtain ⟨v, hv⟩ := tKeys_mem_exists tt (fname f) hkey2
        rw [hkey]
        exact lookupT_isSome_of_mem hv

/-! ## Array and map write-loop round trips (for C3) -/

/-- Semantic equivalence is reflexive on non-table values. -/
theorem tequiv_refl_scalar {v : LuaValue} (h : isTable v = false) :
    tequiv v v = true := by
  rw [tequiv_eq_lvBeq _ _ h]
  exact lvBeq_refl v

/-- The `_setarray` message-element step on a table element that marshals. -/
theorem arrGo_messageK_table {sub : Descriptor} {nm : String} {t : LuaTable}
    {m : Msg} {i : Int} {cnt : Nat} {tt : LuaTable} {sm : Msg}
    (hr : rawgeti t i = .table tt)
    (hm : table2msg sub [] (.table tt) = .ok sm) :
    arrGo (.messageK sub) nm t m i (cnt + 1)
      = arrGo (.messageK sub) nm t (msgAdd m nm (.pMsg sm)) (i + 1) cnt := by
  rw [arrGo_messageK_eq]
  simp only [hr, hm]

/-- On singular fields `wtVal` is element well-typedness. -/
theorem wtVal_singular {f : FieldDescriptor} {v : LuaValue}
    (h : isSingular f = true) : wtVal f v = wtSingle (fkind f) v := by
  unfold wtVal
  unfold isSingular at h
  cases hl : flabel f <;> first | rfl | (rw [hl] at h; simp at h)

/-- `_setfield` on a singular field is `_setsingle`. -/
theorem setfield_singular {f : FieldDescriptor} (h : isSingular f = true)
    (m : Msg) (v : LuaValue) : setfield f m v = setsingle f m v := by
  unfold setfield
  unfold isSingular at h
  cases hl : flabel f <;> first | rfl | (rw [hl] at h; simp at h)

/-- `_pushfield` on a singular field is `_pushsingle`. -/
theorem pushfield_singular {f : FieldDescriptor} (h : isSingular f = true)
    (slot : List PValue) : pushfield f slot = pushsingle f slot := by
  unfold pushfield
  unfold isSingular at h
  cases hl : flabel f <;> first | rfl | (rw [hl] at h; simp at h)

/-- Resolving `key` in a two-field entry type. -/
theorem findField_entry_key {kf vf : FieldDescriptor}
    (hkn : fname kf = "key") : findField [kf, vf] "key" = some kf := by
  simp [findField, List.find?_cons, hkn]

/-- Resolving `value` in a two-field entry type. -/
theorem findField_entry_value {kf vf : FieldDescriptor}
    (hkn : fname kf = "key") (hvn : fname vf = "value") :
    findField [kf, vf] "value" = some vf := by
  simp [findField, List.find?_cons, hkn, hvn]

/-- The `_setarray` element loop round trip: writing the canonical elements
appends one stored element per guest element, and each stored element reads
back equivalent. -/
theorem arrGo_roundtrip {kd : FieldKind} {nm : String} {t : LuaTable} :
    ∀ (es : List LuaValue) (m : Msg) (i : Int),
      (∀ (k : Nat) (hk : k < es.length), rawgeti t (i + k) = es.get ⟨k, hk⟩) →
      (∀ v ∈ es, wtSingle kd v = true) →
      (∀ v ∈ es, ∀ sub : Descriptor, kd = .messageK sub →
         ∃ tt, v = .table tt
           ∧ ∃ sm, table2msg sub [] (.table tt) = .ok sm
               ∧ ∃ w, msg2table sub sm = .ok w ∧ tequiv v w = true) →
      ∃ m₁ ps ws, arrGo kd nm t m i es.length = .ok m₁
        ∧ msgGet m₁ nm = msgGet m nm ++ ps
        ∧ (∀ k₂, k₂ ≠ nm → msgGet m₁ k₂ = msgGet m k₂)
        ∧ List.Forall₂ (elemRead kd) ps ws
        ∧ List.Forall₂ (fun v w => tequiv v w = true) es ws := by
  intro es
  induction es with
  | nil =>
    intro m i _ _ _
    exact ⟨m, [], [], by simp [arrGo], by simp, fun _ _ => rfl, .nil, .nil⟩
  | cons v es ih =>
    intro m i hget hwt hmsg
    have h0 : rawgeti t i = v := by
      have h9 := hget 0 (by simp)
      simpa using h9
    have hget2 : ∀ (k : Nat) (hk : k < es.length),
        rawgeti t ((i + 1) + k) = es.get ⟨k, hk⟩ := by
      intro k hk
      have h9 := hget (k + 1) (by simp [hk])
      have hc : i + ((k + 1 : Nat) : Int) = (i + 1) + (k : Int) := by
        push_cast
        ring
      rw [hc] at h9
      simpa using h9
    have hwtTail : ∀ u ∈ es, wtSingle kd u = true :=
      fun u hu => hwt u (List.mem_cons_of_mem _ hu)
    have hmsgTail : ∀ u ∈ es, ∀ sub : Descriptor, kd = .messageK sub →
        ∃ tt, u = .table tt
          ∧ ∃ sm, table2msg sub [] (.table tt) = .ok sm
              ∧ ∃ w, msg2table sub sm = .ok w ∧ tequiv u w = true :=
      fun u hu => hmsg u (List.mem_cons_of_mem _ hu)
    cases kd with
    | int32K =>
      have hv0 := hwt v (List.mem_cons_self _ _)
      cases v
      case int x =>
        simp only [wtSingle, decide_eq_true_eq] at hv0
        norm_num at hv0
        obtain ⟨m₁, ps, ws, hrun, hslot, hfr, hfe, hft⟩ :=
          ih (msgAdd m nm (.pInt x)) (i + 1) hget2 hwtTail hmsgTail
        refine ⟨m₁, .pInt x :: ps, .int x :: ws, ?_, ?_, ?_, .cons rfl hfe,
                .cons (tequiv_refl_scalar rfl) hft⟩
        · simp only [List.length_cons, arrGo, h0, checkinteger]
          rw [wrapS32_id hv0.1 hv0.2]
          exact hrun
        · rw [hslot, msgGet_msgAdd_same]
          simp
        · intro k₂ hk₂
          rw [hfr k₂ hk₂, msgGet_msgAdd_ne _ _ _ _ hk₂]
      all_goals simp [wtSingle] at hv0
    | int64K =>
      have hv0 := hwt v (List.mem_cons_self _ _)
      cases v
      case int x =>
        simp only [wtSingle, decide_eq_true_eq] at hv0
        norm_num at hv0
        obtain ⟨m₁, ps, ws, hrun, hslot, hfr, hfe, hft⟩ :=
          ih (msgAdd m nm (.pInt x)) (i + 1) hget2 hwtTail hmsgTail
        refine ⟨m₁, .pInt x :: ps, .int x :: ws, ?_, ?_, ?_, .cons rfl hfe,
                .cons (tequiv_refl_scalar rfl) hft⟩
        · simp only [List.length_cons, arrGo, h0, checkinteger]
          rw [wrapS64_id hv0.1 hv0.2]
          exact hrun
        · rw [hslot, msgGet_msgAdd_same]
          simp
        · intro k₂ hk₂
          rw [hfr k₂ hk₂, msgGet_msgAdd_ne _ _ _ _ hk₂]
      all_goals simp [wtSingle] at hv0
    | uint32K =>
      have hv0 := hwt v (List.mem_cons_self _ _)
      cases v
      case int x =>
        simp only [wtSingle, decide_eq_true_eq] at hv0
        norm_num at hv0
        obtain ⟨m₁, ps, ws, hrun, hslot, hfr, hfe, hft⟩ :=
          ih (msgAdd m nm (.pInt x)) (i + 1) hget2 hwtTail hmsgTail
        refine ⟨m₁, .pInt x :: ps, .int x :: ws, ?_, ?_, ?_, .cons rfl hfe,
                .cons (tequiv_refl_scalar rfl) hft⟩
        · simp only [List.length_cons, arrGo, h0, checkinteger]
          rw [wrapU32_id hv0.1 hv0.2]
          exact hrun
        · rw [hslot, msgGet_msgAdd_same]
          simp
        · intro k₂ hk₂
          rw [hfr k₂ hk₂, msgGet_msgAdd_ne _ _ _ _ hk₂]
      all_goals simp [wtSingle] at hv0
    | uint64K =>
      have hv0 := hwt v (List.mem_cons_self _ _)
      cases v
      case int x =>
        simp only [wtSingle, decide_eq_true_eq] at hv0
        norm_num at hv0
        obtain ⟨m₁, ps, ws, hrun, hslot, hfr, hfe, hft⟩ :=
          ih (msgAdd m nm (.pInt x)) (i + 1) hget2 hwtTail hmsgTail
        refine ⟨m₁, .pInt x :: ps, .int x :: ws, ?_, ?_, ?_,
                .cons (by
                  simp only [elemRead, pvInt]
                  rw [wrapS64_id (by omega) (by omega)]) hfe,
                .cons (tequiv_refl_scalar rfl) hft⟩
        · simp only [List.length_cons, arrGo, h0, checkinteger]
          rw [wrapU64_id hv0.1 (by omega)]
          exact hrun
        · rw [hslot, msgGet_msgAdd_same]
          simp
        · intro k₂ hk₂
          rw [hfr k₂ hk₂, msgGet_msgAdd_ne _ _ _ _ hk₂]
      all_goals simp [wtSingle] at hv0
    | doubleK =>
      have hv0 := hwt v (List.mem_cons_self _ _)
      cases v
      case num q =>
        obtain ⟨m₁, ps, ws, hrun, hslot, hfr, hfe, hft⟩ :=
          ih (msgAdd m nm (.pNum q)) (i + 1) hget2 hwtTail hmsgTail
        refine ⟨m₁, .pNum q :: ps, .num q :: ws, ?_, ?_, ?_, .cons rfl hfe,
                .cons (tequiv_refl_scalar rfl) hft⟩
        · simp only [List.length_cons, arrGo, h0, checknumber]
          exact hrun
        · rw [hslot, msgGet_msgAdd_same]
          simp
        · intro k₂ hk₂
          rw [hfr k₂ hk₂, msgGet_msgAdd_ne _ _ _ _ hk₂]
      all_goals simp [wtSingle] at hv0
    | floatK =>
      have hv0 := hwt v (List.mem_cons_self _ _)
      cases v
      case num q =>
        simp only [wtSingle, decide_eq_true_eq] at hv0
        obtain ⟨m₁, ps, ws, hrun, hslot, hfr, hfe, hft⟩ :=
          ih (msgAdd m nm (.pNum q)) (i + 1) hget2 hwtTail hmsgTail
        refine ⟨m₁, .pNum q :: ps, .num q :: ws, ?_, ?_, ?_, .cons rfl hfe,
                .cons (tequiv_refl_scalar rfl) hft⟩
        · simp only [List.length_cons, arrGo, h0, checknumber]
          rw [hv0]
          exact hrun
        · rw [hslot, msgGet_msgAdd_same]
          simp
        · intro k₂ hk₂
          rw [hfr k₂ hk₂, msgGet_msgAdd_ne _ _ _ _ hk₂]
      all_goals simp [wtSingle] at hv0
    | boolK =>
      have hv0 := hwt v (List.mem_cons_self _ _)
      cases v
      case boolean b =>
        obtain ⟨m₁, ps, ws, hrun, hslot, hfr, hfe, hft⟩ :=
          ih (msgAdd m nm (.pBool b)) (i + 1) hget2 hwtTail hmsgTail
        refine ⟨m₁, .pBool b :: ps, .boolean b :: ws, ?_, ?_, ?_, .cons rfl hfe,
                .cons (tequiv_refl_scalar rfl) hft⟩
        · simp only [List.length_cons, arrGo, h0, toboolean]
          exact hrun
        · rw [hslot, msgGet_msgAdd_same]
          simp
        · intro k₂ hk₂
          rw [hfr k₂ hk₂, msgGet_msgAdd_ne _ _ _ _ hk₂]
      all_goals simp [wtSingle] at hv0
    | stringK =>
      have hv0 := hwt v (List.mem_cons_self _ _)
      cases v
      case str s =>
        simp only [wtSingle, decide_eq_true_eq] at hv0
        obtain ⟨m₁, ps, ws, hrun, hslot, hfr, hfe, hft⟩ :=
          ih (msgAdd m nm (.pStr s)) (i + 1) hget2 hwtTail hmsgTail
        refine ⟨m₁, .pStr s :: ps, .str s :: ws, ?_, ?_, ?_, .cons rfl hfe,
                .cons (tequiv_refl_scalar rfl) hft⟩
        · simp only [List.length_cons, arrGo, h0, checkstring]
          rw [hv0]
          exact hrun
        · rw [hslot, msgGet_msgAdd_same]
          simp
        · intro k₂ hk₂
          rw [hfr k₂ hk₂, msgGet_msgAdd_ne _ _ _ _ hk₂]
      all_goals simp [wtSingle] at hv0
    | enumK syms =>
      have hv0 := hwt v (List.mem_cons_self _ _)
      cases v
      case str s =>
        simp only [wtSingle, Bool.and_eq_true, decide_eq_true_eq] at hv0
        obtain ⟨m₁, ps, ws, hrun, hslot, hfr, hfe, hft⟩ :=
          ih (msgAdd m nm (.pEnum s)) (i + 1) hget2 hwtTail hmsgTail
        refine ⟨m₁, .pEnum s :: ps, .str s :: ws, ?_, ?_, ?_,
                .cons ⟨s, rfl, rfl⟩ hfe,
                .cons (tequiv_refl_scalar rfl) hft⟩
        · simp only [List.length_cons, arrGo, h0, checkstring]
          rw [hv0.1, if_pos hv0.2]
          exact hrun
        · rw [hslot, msgGet_msgAdd_same]
          simp
        · intro k₂ hk₂
          rw [hfr k₂ hk₂, msgGet_msgAdd_ne _ _ _ _ hk₂]
      all_goals simp [wtSingle] at hv0
    | messageK sub =>
      obtain ⟨tt, htt, sm, hw2m, wv, hm2t, htq⟩ :=
        hmsg v (List.mem_cons_self _ _) sub rfl
      subst htt
      obtain ⟨m₁, ps, ws, hrun, hslot, hfr, hfe, hft⟩ :=
        ih (msgAdd m nm (.pMsg sm)) (i + 1) hget2 hwtTail hmsgTail
      refine ⟨m₁, .pMsg sm :: ps, wv :: ws, ?_, ?_, ?_,
              .cons ⟨sm, rfl, hm2t⟩ hfe, .cons htq hft⟩
      · simp only [List.length_cons]
        rw [arrGo_messageK_table h0 hw2m]
        exact hrun
      · rw [hslot, msgGet_msgAdd_same]
        simp
      · intro k₂ hk₂
        rw [hfr k₂ hk₂, msgGet_msgAdd_ne _ _ _ _ hk₂]

/-- One map entry round trip: the guest key/value pair becomes a fresh
entry message whose `_msg2kv` read-back returns the key exactly and an
equivalent value. -/
theorem kv_entry_roundtrip {de : Descriptor} {kf vf : FieldDescriptor}
    (hde : de = [kf, vf]) (hkn : fname kf = "key") (hvn : fname vf = "value")
    (hks : isSingular kf = true) (hvs : isSingular vf = true)
    (hknm : nonMsgKind (fkind kf) = true)
    {k v : LuaValue}
    (hwk : wtSingle (fkind kf) k = true)
    (hS1v : ∀ m₀ : Msg, wfKind (fkind vf) = true → wtVal vf v = true →
       msgGet m₀ (fname vf) = [] →
       ∃ m₁, setfield vf m₀ v = .ok m₁
         ∧ msgGet m₁ (fname vf) ≠ []
         ∧ (∀ k₂, k₂ ≠ fname vf → msgGet m₁ k₂ = msgGet m₀ k₂)
         ∧ ∃ w, pushfield vf (msgGet m₁ (fname vf)) = .ok w ∧ tequiv v w = true)
    (hwfv : wfKind (fkind vf) = true)
    (hwv : wtSingle (fkind vf) v = true) :
    ∃ ent vw, kv2msg de [] k v = .ok ent
      ∧ msg2kv de ent = .ok (k, vw) ∧ tequiv v vw = true := by
  subst hde
  obtain ⟨wk, hsetk, hpushk⟩ := scalar_write_read kf k [] hknm hwk
  have hne_vk : fname vf ≠ fname kf := by
    rw [hkn, hvn]
    decide
  have hmv : msgGet (msgSet [] (fname kf) [wk]) (fname vf) = [] := by
    rw [msgGet_msgSet_ne _ _ _ hne_vk]
    rfl
  obtain ⟨ent, hsetv, hnev, hframev, vw, hpushv, htqv⟩ :=
    hS1v (msgSet [] (fname kf) [wk]) hwfv
      (by rw [wtVal_singular hvs]; exact hwv) hmv
  have hgk : msgGet ent (fname kf) = [wk] := by
    rw [hframev (fname kf) (fun hc => hne_vk hc.symm), msgGet_msgSet_same]
  refine ⟨ent, vw, ?_, ?_, htqv⟩
  · simp only [kv2msg, findField_entry_key hkn, findField_entry_value hkn hvn,
               setfield_singular hks, hsetk, hsetv]
  · have hkE : (msgGet ent (fname kf)).isEmpty = false := by
      rw [hgk]
      rfl
    have hvE : (msgGet ent (fname vf)).isEmpty = false := by
      cases hq : msgGet ent (fname vf)
      · exact absurd hq hnev
      · rfl
    have hlf : listFields [kf, vf] ent = [kf, vf] := by
      simp [listFields, hkE, hvE]
    rw [pushfield_singular hvs] at hpushv
    simp only [msg2kv, hlf, findField_entry_key hkn, findField_entry_value hkn hvn,
               pushfield_singular hks, pushfield_singular hvs, hgk, hpushk, hpushv]
    simp

/-- The `_setmap` entry loop round trip. -/
theorem mapGo_roundtrip {de : Descriptor} {kf vf : FieldDescriptor} {nm : String}
    (hde : de = [kf, vf]) (hkn : fname kf = "key") (hvn : fname vf = "value")
    (hks : isSingular kf = true) (hvs : isSingular vf = true)
    (hknm : nonMsgKind (fkind kf) = true) :
    ∀ (t : LuaTable) (m : Msg),
      wtMapPairs kf vf t = true →
      (∀ p ∈ t, ∀ m₀ : Msg,
         wfKind (fkind vf) = true → wtVal vf p.2 = true →
         msgGet m₀ (fname vf) = [] →
         ∃ m₁, setfield vf m₀ p.2 = .ok m₁
           ∧ msgGet m₁ (fname vf) ≠ []
           ∧ (∀ k₂, k₂ ≠ fname vf → msgGet m₁ k₂ = msgGet m₀ k₂)
           ∧ ∃ w, pushfield vf (msgGet m₁ (fname vf)) = .ok w
               ∧ tequiv p.2 w = true) →
      wfKind (fkind vf) = true →
      ∃ m₁ ps kvs, mapGo de nm m t = .ok m₁
        ∧ msgGet m₁ nm = msgGet m nm ++ ps
        ∧ (∀ k₂, k₂ ≠ nm → msgGet m₁ k₂ = msgGet m k₂)
        ∧ List.Forall₂ (fun e kv => msg2kv de (pvMsg e) = .ok kv) ps kvs
        ∧ List.Forall₂ (fun (p q : LuaValue × LuaValue) =>
            p.1 = q.1 ∧ tequiv p.2 q.2 = true) t kvs := by
  intro t
  induction t with
  | nil =>
    intro m _ _ _
    exact ⟨m, [], [], by simp [mapGo], by simp, fun _ _ => rfl, .nil, .nil⟩
  | cons pr rest ih =>
    obtain ⟨k, v⟩ := pr
    intro m hwt hS1 hwfv
    simp only [wtMapPairs, Bool.and_eq_true] at hwt
    obtain ⟨⟨hwk, hwv⟩, hwrest⟩ := hwt
    obtain ⟨ent, vw, hkv, hm2kv, htqv⟩ :=
      kv_entry_roundtrip hde hkn hvn hks hvs hknm hwk
        (fun m₀ a b c => hS1 (k, v) (List.mem_cons_self _ _) m₀ a b c) hwfv hwv
    obtain ⟨m₁, ps, kvs, hrun, hslot, hfr, hfe, hft⟩ :=
      ih (msgAdd m nm (.pMsg ent)) hwrest
         (fun p hp => hS1 p (List.mem_cons_of_mem _ hp)) hwfv
    refine ⟨m₁, .pMsg ent :: ps, (k, vw) :: kvs, ?_, ?_, ?_,
            .cons hm2kv hfe, .cons ⟨rfl, htqv⟩ hft⟩
    · simp only [mapGo, hkv]
      exact hrun
    · rw [hslot, msgGet_msgAdd_same]
      simp
    · intro k₂ hk₂
      rw [hfr k₂ hk₂, msgGet_msgAdd_ne _ _ _ _ hk₂]

/-! ## The master round-trip induction (for C3) -/

/-- A `Forall₂` partner of a non-empty list is non-empty. -/
theorem forall₂_ne_nil {α β : Type} {R : α → β → Prop}
    {l₁ : List α} {l₂ : List β}
    (h : List.Forall₂ R l₁ l₂) (hne : l₁ ≠ []) : l₂ ≠ [] := by
  cases h
  · exact absurd rfl hne
  · simp

/-- A `Forall₂` partner of a non-empty list is non-empty (other side). -/
theorem forall₂_ne_nil_left {α β : Type} {R : α → β → Prop}
    {l₁ : List α} {l₂ : List β}
    (h : List.Forall₂ R l₁ l₂) (hne : l₂ ≠ []) : l₁ ≠ [] := by
  cases h
  · exact absurd rfl hne
  · simp

/-- The singular-field round trip, given the message-level round trip for
strictly smaller tables (`hS3`). -/
theorem singular_roundtrip {n : Nat}
    (hS3 : ∀ (d : Descriptor) (tt : LuaTable), sizeOf (LuaValue.table tt) ≤ n →
       wfD d = true → wtTable d tt = true →
       ∃ m, table2msg d [] (.table tt) = .ok m
         ∧ ∃ out, msg2table d m = .ok (.table out)
             ∧ tequiv (.table tt) (.table out) = true) :
    ∀ (f : FieldDescriptor) (v : LuaValue) (m₀ : Msg),
      isSingular f = true →
      sizeOf v ≤ n → wfKind (fkind f) = true → wtSingle (fkind f) v = true →
      msgGet m₀ (fname f) = [] →
      ∃ m₁, setfield f m₀ v = .ok m₁
        ∧ msgGet m₁ (fname f) ≠ []
        ∧ (∀ k, k ≠ fname f → msgGet m₁ k = msgGet m₀ k)
        ∧ ∃ w, pushfield f (msgGet m₁ (fname f)) = .ok w
            ∧ tequiv v w = true := by
  intro f v m₀ hsing hsz hwfk hwv hm0
  by_cases hmk : ∃ sub, fkind f = FieldKind.messageK sub
  · obtain ⟨sub, hk⟩ := hmk
    cases v with
    | nil => rw [hk] at hwv; simp [wtSingle] at hwv
    | boolean b => rw [hk] at hwv; simp [wtSingle] at hwv
    | int x => rw [hk] at hwv; simp [wtSingle] at hwv
    | num q => rw [hk] at hwv; simp [wtSingle] at hwv
    | str s => rw [hk] at hwv; simp [wtSingle] at hwv
    | table tt =>
      rw [hk] at hwv hwfk
      simp only [wtSingle] at hwv
      have hwfd : wfD sub = true := wfKind_messageK hwfk
      obtain ⟨sm, hw2m, out, hm2t, htq⟩ := hS3 sub tt hsz hwfd hwv
      have hcs : currentSub m₀ (fname f) = [] := by
        unfold currentSub
        rw [hm0]
      refine ⟨msgSet m₀ (fname f) [.pMsg sm], ?_, ?_, ?_, .table out, ?_, htq⟩
      · rw [setfield_singular hsing]
        unfold setsingle
        rw [hk]
        simp only [hcs, hw2m]
      · rw [msgGet_msgSet_same]
        simp
      · intro k₂ hk₂
        exact msgGet_msgSet_ne _ _ _ hk₂ m₀
      · rw [pushfield_singular hsing, msgGet_msgSet_same]
        unfold pushsingle
        rw [hk]
        simp only [hm2t]
  · have hnm : nonMsgKind (fkind f) = true := by
      cases hk : fkind f <;> first | rfl | exact absurd ⟨_, hk⟩ hmk
    obtain ⟨w, hset, hpush⟩ := scalar_write_read f v m₀ hnm hwv
    refine ⟨msgSet m₀ (fname f) [w], ?_, ?_, ?_, v, ?_,
            tequiv_refl_scalar (wtSingle_not_table hnm hwv)⟩
    · rw [setfield_singular hsing]
      exact hset
    · rw [msgGet_msgSet_same]
      simp
    · intro k₂ hk₂
      exact msgGet_msgSet_ne _ _ _ hk₂ m₀
    · rw [pushfield_singular hsing, msgGet_msgSet_same]
      exact hpush

/-- The field-level round trip for every label, given the message-level
round trip up to size `n` and the field-level round trip at strictly
smaller guest values. -/
theorem setfield_roundtrip_aux {n : Nat}
    (hS3 : ∀ (d : Descriptor) (tt : LuaTable), sizeOf (LuaValue.table tt) ≤ n →
       wfD d = true → wtTable d tt = true →
       ∃ m, table2msg d [] (.table tt) = .ok m
         ∧ ∃ out, msg2table d m = .ok (.table out)
             ∧ tequiv (.table tt) (.table out) = true) :
    ∀ (f : FieldDescriptor) (v : LuaValue) (m₀ : Msg),
      (∀ (f₂ : FieldDescriptor) (u : LuaValue) (m₂ : Msg), sizeOf u < sizeOf v →
         wfKind (fkind f₂) = true → wtVal f₂ u = true → msgGet m₂ (fname f₂) = [] →
         ∃ m₃, setfield f₂ m₂ u = .ok m₃
           ∧ msgGet m₃ (fname f₂) ≠ []
           ∧ (∀ k, k ≠ fname f₂ → msgGet m₃ k = msgGet m₂ k)
           ∧ ∃ w, pushfield f₂ (msgGet m₃ (fname f₂)) = .ok w ∧ tequiv u w = true) →
      sizeOf v ≤ n →
      wfKind (fkind f) = true → wtVal f v = true → msgGet m₀ (fname f) = [] →
      ∃ m₁, setfield f m₀ v = .ok m₁
        ∧ msgGet m₁ (fname f) ≠ []
        ∧ (∀ k, k ≠ fname f → msgGet m₁ k = msgGet m₀ k)
        ∧ ∃ w, pushfield f (msgGet m₁ (fname f)) = .ok w ∧ tequiv v w = true := by
  intro f v m₀ hS1sub hsz hwfk hwv hm0
  cases hl : flabel f
  case optionalL =>
    have hsing : isSingular f = true := by
      unfold isSingular
      rw [hl]
    have hwv2 : wtSingle (fkind f) v = true := by
      unfold wtVal at hwv
      rw [hl] at hwv
      exact hwv
    exact singular_roundtrip hS3 f v m₀ hsing hsz hwfk hwv2 hm0
  case requiredL =>
    have hsing : isSingular f = true := by
      unfold isSingular
      rw [hl]
    have hwv2 : wtSingle (fkind f) v = true := by
      unfold wtVal at hwv
      rw [hl] at hwv
      exact hwv
    exact singular_roundtrip hS3 f v m₀ hsing hsz hwfk hwv2 hm0
  case repeatedL =>
    have hwv2 : (if fismap f = true then wtMapV (fkind f) v
        else wtArrV (fkind f) v) = true := by
      unfold wtVal at hwv
      rw [hl] at hwv
      exact hwv
    cases hfm : fismap f with
    | false =>
      rw [if_neg (by simp [hfm])] at hwv2
      cases v with
      | nil => simp [wtArrV] at hwv2
      | boolean b => simp [wtArrV] at hwv2
      | int x => simp [wtArrV] at hwv2
      | num q => simp [wtArrV] at hwv2
      | str s => simp [wtArrV] at hwv2
      | table t =>
        simp only [wtArrV, Bool.and_eq_true] at hwv2
        obtain ⟨harr, htne⟩ := hwv2
        have htnil : t ≠ [] := by
          cases t
          · simp at htne
          · simp
        have hset_eq : setfield f m₀ (.table t)
            = arrGo (fkind f) (fname f) t m₀ 1 (rawlen t) := by
          unfold setfield
          rw [hl]
          simp [hfm, setarray]
        have hget : ∀ (k : Nat) (hk : k < (t.map (fun p => p.2)).length),
            rawgeti t (1 + k) = (t.map (fun p => p.2)).get ⟨k, hk⟩ := by
          intro k hk
          have hk2 : k < t.length := by simpa using hk
          rw [canonical_rawgeti t 1 harr k hk2]
          simp [List.get_eq_getElem]
        have hwts : ∀ u ∈ t.map (fun p => p.2), wtSingle (fkind f) u = true := by
          intro u hu
          obtain ⟨p, hp, hpu⟩ := List.mem_map.mp hu
          rw [← hpu]
          exact wtArr_snd_wt t 1 harr p hp
        have hszt : ∀ u ∈ t.map (fun p => p.2),
            sizeOf u < sizeOf (LuaValue.table t) := by
          intro u hu
          obtain ⟨p, hp, hpu⟩ := List.mem_map.mp hu
          rw [← hpu]
          exact mem_snd_sizeOf_lt hp
        have hmsgs : ∀ u ∈ t.map (fun p => p.2), ∀ sub : Descriptor,
            fkind f = .messageK sub →
            ∃ tt2, u = .table tt2
              ∧ ∃ sm, table2msg sub [] (.table tt2) = .ok sm
                  ∧ ∃ w, msg2table sub sm = .ok w ∧ tequiv u w = true := by
          intro u hu sub hksub
          have hwtu := hwts u hu
          rw [hksub] at hwtu
          cases u with
          | nil => simp [wtSingle] at hwtu
          | boolean b => simp [wtSingle] at hwtu
          | int x => simp [wtSingle] at hwtu
          | num q => simp [wtSingle] at hwtu
          | str s => simp [wtSingle] at hwtu
          | table tt2 =>
            simp only [wtSingle] at hwtu
            have hwfsub : wfD sub = true := by
              rw [hksub] at hwfk
              exact wfKind_messageK hwfk
            have hsz2 : sizeOf (LuaValue.table tt2) ≤ n :=
              le_trans (le_of_lt (hszt _ hu)) hsz
            obtain ⟨sm, hsm, out, hout, htqo⟩ := hS3 sub tt2 hsz2 hwfsub hwtu
            exact ⟨tt2, rfl, sm, hsm, .table out, hout, htqo⟩
        obtain ⟨m₁, ps, ws, hrun, hslot, hfr, hfe, hft⟩ :=
          @arrGo_roundtrip (fkind f) (fname f) t (t.map (fun p => p.2)) m₀ 1
            hget hwts hmsgs
        have hlen2 : (t.map (fun p => p.2)).length = t.length := by simp
        have hps_ne : ps ≠ [] := by
          have hes_ne : t.map (fun p => p.2) ≠ [] := by simpa using htnil
          exact forall₂_ne_nil_left hfe (forall₂_ne_nil hft hes_ne)
        refine ⟨m₁, ?_, ?_, ?_, ?_⟩
        · rw [hset_eq, rawlen_canonical harr, ← hlen2]
          exact hrun
        · rw [hslot, hm0]
          simpa using hps_ne
        · exact hfr
        · have hslot2 : msgGet m₁ (fname f) = ps := by
            rw [hslot, hm0]
            rfl
          have hpush_eq : pushfield f ps = pusharray f ps := by
            unfold pushfield
            rw [hl]
            simp [hfm]
          have hap := @arrPushGo_assemble (fkind f) ps ws hfe [] 1
            (by intro p hp; simp at hp)
          refine ⟨.table (idxPairs 1 ws), ?_, ?_⟩
          · rw [hslot2, hpush_eq]
            simp only [pusharray, hap, List.nil_append]
          · exact tequiv_aligned (wtArr_aligned t 1 ws harr hft)
              (wtArr_keysDistinct t 1 harr)
    | true =>
      rw [if_pos hfm] at hwv2
      cases v with
      | nil => simp [wtMapV] at hwv2
      | boolean b => simp [wtMapV] at hwv2
      | int x => simp [wtMapV] at hwv2
      | num q => simp [wtMapV] at hwv2
      | str s => simp [wtMapV] at hwv2
      | table t =>
        cases hk : fkind f with
        | int32K => rw [hk] at hwv2; simp [wtMapV] at hwv2
        | int64K => rw [hk] at hwv2; simp [wtMapV] at hwv2
        | uint32K => rw [hk] at hwv2; simp [wtMapV] at hwv2
        | uint64K => rw [hk] at hwv2; simp [wtMapV] at hwv2
        | doubleK => rw [hk] at hwv2; simp [wtMapV] at hwv2
        | floatK => rw [hk] at hwv2; simp [wtMapV] at hwv2
        | boolK => rw [hk] at hwv2; simp [wtMapV] at hwv2
        | stringK => rw [hk] at hwv2; simp [wtMapV] at hwv2
        | enumK syms => rw [hk] at hwv2; simp [wtMapV] at hwv2
        | messageK de =>
          rw [hk] at hwv2
          simp only [wtMapV, Bool.and_eq_true] at hwv2
          obtain ⟨hmt, htne⟩ := hwv2
          have htnil : t ≠ [] := by
            cases t
            · simp at htne
            · simp
          unfold wtMapT at hmt
          cases de with
          | nil => simp at hmt
          | cons kf de2 =>
            cases de2 with
            | nil => simp at hmt
            | cons vf de3 =>
              cases de3 with
              | cons g de4 => simp at hmt
              | nil =>
                simp only [Bool.and_eq_true, decide_eq_true_eq] at hmt
                obtain ⟨⟨⟨⟨⟨⟨hkn, hvn⟩, hks⟩, hvs⟩, hknm⟩, hdk⟩, hmp⟩ := hmt
                rw [hk] at hwfk
                have hwfde := wfKind_messageK hwfk
                have hwfvf : wfKind (fkind vf) = true :=
                  (wfD_parts hwfde).2 vf (by simp)
                have hS1v : ∀ p ∈ t, ∀ m₂ : Msg,
                    wfKind (fkind vf) = true → wtVal vf p.2 = true →
                    msgGet m₂ (fname vf) = [] →
                    ∃ m₃, setfield vf m₂ p.2 = .ok m₃
                      ∧ msgGet m₃ (fname vf) ≠ []
                      ∧ (∀ k₂, k₂ ≠ fname vf → msgGet m₃ k₂ = msgGet m₂ k₂)
                      ∧ ∃ w, pushfield vf (msgGet m₃ (fname vf)) = .ok w
                          ∧ tequiv p.2 w = true := by
                  intro p hp m₂ a b c
                  exact hS1sub vf p.2 m₂ (mem_snd_sizeOf_lt hp) a b c
                obtain ⟨m₁, ps, kvs, hrun, hslot, hfr, hfe, hft⟩ :=
                  @mapGo_roundtrip [kf, vf] kf vf (fname f) rfl hkn hvn hks hvs
                    hknm t m₀ hmp hS1v hwfvf
                have hps_ne : ps ≠ [] :=
                  forall₂_ne_nil_left hfe (forall₂_ne_nil hft htnil)
                have hset_eq : setfield f m₀ (.table t)
                    = mapGo [kf, vf] (fname f) m₀ t := by
                  unfold setfield
                  rw [hl]
                  simp [hfm, setmap, hk]
                refine ⟨m₁, ?_, ?_, ?_, ?_⟩
                · rw [hset_eq]
                  exact hrun
                · rw [hslot, hm0]
                  simpa using hps_ne
                · exact hfr
                · have hslot2 : msgGet m₁ (fname f) = ps := by
                    rw [hslot, hm0]
                    rfl
                  have hkdist : keysDistinct kvs = true :=
                    keysDistinct_of_aligned (hft.imp (fun a b hab => hab.1)) hdk
                  have hassem := mapPushGo_assemble hfe hkdist []
                    (by intro kv _ p hp; simp at hp)
                  have hpush_eq : pushfield f ps = pushmap f ps := by
                    unfold pushfield
                    rw [hl]
                    simp [hfm]
                  refine ⟨.table kvs, ?_, ?_⟩
                  · rw [hslot2, hpush_eq]
                    unfold pushmap
                    rw [hk]
                    simp only [hassem, List.nil_append]
                  · exact tequiv_aligned (hft.imp (fun a b hab => hab)) hdk

/-- The message-level and field-level round trips, by strong induction on
the guest value size. -/
theorem roundtrip_master : ∀ n : Nat,
    (∀ (d : Descriptor) (tt : LuaTable), sizeOf (LuaValue.table tt) ≤ n →
       wfD d = true → wtTable d tt = true →
       ∃ m, table2msg d [] (.table tt) = .ok m
         ∧ ∃ out, msg2table d m = .ok (.table out)
             ∧ tequiv (.table tt) (.table out) = true)
    ∧ (∀ (f : FieldDescriptor) (v : LuaValue) (m₀ : Msg), sizeOf v ≤ n →
       wfKind (fkind f) = true → wtVal f v = true →
       msgGet m₀ (fname f) = [] →
       ∃ m₁, setfield f m₀ v = .ok m₁
         ∧ msgGet m₁ (fname f) ≠ []
         ∧ (∀ k, k ≠ fname f → msgGet m₁ k = msgGet m₀ k)
         ∧ ∃ w, pushfield f (msgGet m₁ (fname f)) = .ok w
             ∧ tequiv v w = true) := by
  intro n
  induction n using Nat.strong_induction_on with
  | _ n ih =>
    have hS3 : ∀ (d : Descriptor) (tt : LuaTable), sizeOf (LuaValue.table tt) ≤ n →
        wfD d = true → wtTable d tt = true →
        ∃ m, table2msg d [] (.table tt) = .ok m
          ∧ ∃ out, msg2table d m = .ok (.table out)
              ∧ tequiv (.table tt) (.table out) = true := by
      intro d tt hsz hwf hwt
      have hwt2 : wtPairs d tt = true ∧ (tKeys tt).Nodup := by
        unfold wtTable at hwt
        simp only [Bool.and_eq_true, decide_eq_true_eq] at hwt
        exact hwt
      have hS1pairs : ∀ p ∈ tt, ∀ (f : FieldDescriptor) (m₀ : Msg),
          wfKind (fkind f) = true → wtVal f p.2 = true →
          msgGet m₀ (fname f) = [] →
          ∃ m₁, setfield f m₀ p.2 = .ok m₁
            ∧ msgGet m₁ (fname f) ≠ []
            ∧ (∀ k, k ≠ fname f → msgGet m₁ k = msgGet m₀ k)
            ∧ ∃ w, pushfield f (msgGet m₁ (fname f)) = .ok w
                ∧ tequiv p.2 w = true := by
        intro p hp f m₀ ha hb hc
        have hlt : sizeOf p.2 < n := lt_of_lt_of_le (mem_snd_sizeOf_lt hp) hsz
        exact (ih (sizeOf p.2) hlt).2 f p.2 m₀ le_rfl ha hb hc
      obtain ⟨m₂, hrun, hframe, hdone⟩ :=
        t2mGo_roundtrip tt [] hS1pairs hwf hwt2.1 hwt2.2 (fun s _ => rfl)
      refine ⟨m₂, ?_, ?_⟩
      · simp only [table2msg]
        exact hrun
      · exact msg2table_of_done (wfD_parts hwf).1
          (fun k hk => by rw [hframe k hk]; rfl) hdone
    refine ⟨hS3, ?_⟩
    intro f v m₀ hsz hwfk hwv hm0
    refine setfield_roundtrip_aux hS3 f v m₀ ?_ hsz hwfk hwv hm0
    intro f₂ u m₂ hu ha hb hc
    have hlt : sizeOf u < n := lt_of_lt_of_le hu hsz
    exact (ih (sizeOf u) hlt).2 f₂ u m₂ le_rfl ha hb hc

/-! ## C3: the round-trip claim -/

/-- Extracting the per-pair lookups from the forward half of table
equivalence. -/
theorem tequivL_to_lookup :
    ∀ (a out : LuaTable), tequivL a out = true →
      ∀ p ∈ a, ∃ w, lookupT out p.1 = some w ∧ tequiv p.2 w = true := by
  intro a
  induction a with
  | nil => intro out _ p hp; simp at hp
  | cons q rest ih =>
    intro out h p hp
    obtain ⟨k, v⟩ := q
    unfold tequivL at h
    simp only [Bool.and_eq_true] at h
    obtain ⟨h1, h2⟩ := h
    cases hp with
    | head =>
      cases hlk : lookupT out k with
      | none =>
        rw [hlk] at h1
        simp at h1
      | some w =>
        rw [hlk] at h1
        exact ⟨w, rfl, h1⟩
    | tail _ hp => exact ih out h2 p hp

/-- Schema with one repeated int32 field (C3 counterexample). -/
def xsD : Descriptor := [("xs", .repeatedL, false, .int32K)]

/-- A guest table binding the repeated field `xs` to an empty sequence:
correctly typed for `xsD`, yet the round trip loses the key. -/
def xsT : LuaTable := [(.str "xs", .table [])]

/-- **C3 counterexample**: the claim fails as stated.  The table binding
repeated field `xs` to an empty sequence is built strictly from schema
field names with a correctly-typed value, but `_setarray` of an empty
sequence appends nothing, the field stays unset, `_msg2table` omits it,
and the reconstructed table does not contain the key `xs` at all. -/
theorem c3_counterexample_empty_repeated_key_lost :
    table2msg xsD [] (.table xsT) = .ok []
      ∧ msg2table xsD [] = .ok (.table [])
      ∧ tequiv (.table xsT) (.table []) = false := by
  refine ⟨?_, ?_, ?_⟩
  · simp [table2msg, t2mGo, setfield, setarray, arrGo, rawlen, rawlenGo,
      checkstring, findField, xsD, xsT, fname, flabel, fismap, fkind,
      show cstr "xs" = "xs" from rfl]
  · simp [msg2table, m2tGo, listFields, xsD, msgGet, fname]
  · simp [tequiv, tequivL, lookupT, xsT]

/-- **C3 (amended)**: for every schema with recursively distinct field
names (`wfD`) and every guest table well-typed for it (`wtTable`: string
keys naming schema fields with distinct keys throughout, integer values in
the field's range with uint64 below 2^63, floats exactly representable in
binary32, strings and enum symbols free of embedded NUL bytes, enum
symbols among the type's values, message values well-typed tables,
repeated and map values non-empty canonical tables, map keys of scalar
kind), `_table2msg` into a fresh message succeeds and `_msg2table` of the
result reproduces every key of the table with a semantically equal value
(scalars exact, strings byte-exact, enums by symbol name, nested, repeated
and map values structurally equal up to pair order). -/
theorem c3_amended_round_trip_well_typed
    (d : Descriptor) (tt : LuaTable)
    (hwf : wfD d = true) (hwt : wtTable d tt = true) :
    ∃ m out, table2msg d [] (.table tt) = .ok m
      ∧ msg2table d m = .ok (.table out)
      ∧ (∀ p ∈ tt, ∃ w, lookupT out p.1 = some w ∧ tequiv p.2 w = true)
      ∧ tequiv (.table tt) (.table out) = true := by
  obtain ⟨m, hw, out, hr, htq⟩ :=
    (roundtrip_master (sizeOf (LuaValue.table tt))).1 d tt le_rfl hwf hwt
  have htq2 := htq
  unfold tequiv at htq2
  simp only [Bool.and_eq_true] at htq2
  exact ⟨m, out, hw, hr, tequivL_to_lookup tt out htq2.1, htq⟩

/-- **C3 witness**: the round trip at a concrete schema and table. -/
theorem c3_amended_round_trip_well_typed_witness :
    wfD personD = true
      ∧ wtTable personD [(.str "name", .str "bob"), (.str "age", .int 33)] = true
      ∧ ∃ m out,
          table2msg personD []
              (.table [(.str "name", .str "bob"), (.str "age", .int 33)]) = .ok m
            ∧ msg2table personD m = .ok (.table out)
            ∧ (∀ p ∈ ([(.str "name", .str "bob"), (.str "age", .int 33)] : LuaTable),
                 ∃ w, lookupT out p.1 = some w ∧ tequiv p.2 w = true)
            ∧ tequiv (.table [(.str "name", .str "bob"), (.str "age", .int 33)])
                (.table out) = true :=
  have h1 : wfD personD = true := by
    simp [wfD, wfFields, wfKind, personD, fname]
  have h2 : wtTable personD
      [(.str "name", .str "bob"), (.str "age", .int 33)] = true := by
    simp [wtTable, wtPairs, wtVal, wtSingle, tKeys, findField, personD,
      fname, flabel, fkind, show cstr "name" = "name" from rfl,
      show cstr "age" = "age" from rfl, show cstr "bob" = "bob" from rfl]
  ⟨h1, h2, c3_amended_round_trip_well_typed personD
    [(.str "name", .str "bob"), (.str "age", .int 33)] h1 h2⟩

end LuaProto
